import Mathlib

/-!
# Verification of the codebusters xenocrypt cipher core

Shallow embedding of the substitution-cipher logic of the repository.
Two variants are embedded:

* namespace `Xeno`  — `src/xenocrypt.js` (vanilla JS; its `ALPHABET` constant
  holds 28 characters because the letter `Ñ` was corrupted into the two
  characters U+00C3 and U+2018 in the source bytes);
* namespace `Rp`    — `src/unnamed/part_000` (React component
  `XenocryptPractice`; clean 26-letter `A`–`Z` alphabet).

JavaScript objects used as string-keyed maps are modelled as
insertion-ordered association lists (`JsMap`), since the source iterates
them with `Object.keys(...).find(...)` in insertion order.  JS strings are
modelled as `List Char`; `String.prototype.toUpperCase` is modelled on the
Basic Latin and Latin-1 ranges (the only ones the program's data uses) and
is the identity elsewhere.
-/

set_option maxHeartbeats 1000000

namespace Codebusters

/-- Model of JS `toUpperCase`, restricted to one character: ASCII `a`–`z`
and Latin-1 `à`–`þ` (except `÷`) are mapped down by 32; all other
characters are unchanged. -/
def jsToUpper (c : Char) : Char :=
  if 97 ≤ c.toNat ∧ c.toNat ≤ 122 then Char.ofNat (c.toNat - 32)
  else if 224 ≤ c.toNat ∧ c.toNat ≤ 254 ∧ c.toNat ≠ 247 then Char.ofNat (c.toNat - 32)
  else c

/-- JS `s.toUpperCase()` on a string modelled as a character list. -/
def jsUpperList (s : List Char) : List Char := s.map jsToUpper

/-- A JS object with single-character property names: an insertion-ordered
association list.  The value type is a parameter so that the same model
covers the guess/key maps (`Char` values) and the frequency counters
(`Nat` values). -/
abbrev JsObj (α : Type) := List (Char × α)

/-- A JS object used as a `{CipherLetter: PlainLetter}` map. -/
abbrev JsMap := JsObj Char

/-- JS property read `m[k]`: the value of the (unique) entry with key `k`,
`none` when the property is absent (JS `undefined`). -/
def jsGet {α : Type} (m : JsObj α) (k : Char) : Option α :=
  (m.find? (fun e => e.1 = k)).map (fun e => e.2)

/-- JS property write `m[k] = v`: updates the entry in place when the key
is present (JS objects keep the original insertion position), otherwise
appends a new entry. -/
def jsSet {α : Type} (m : JsObj α) (k : Char) (v : α) : JsObj α :=
  if m.any (fun e => e.1 = k) then m.map (fun e => if e.1 = k then (k, v) else e)
  else m ++ [(k, v)]

/-- JS `delete m[k]`. -/
def jsDelete {α : Type} (m : JsObj α) (k : Char) : JsObj α :=
  m.filter (fun e => !(e.1 = k))

/-- The inverse-map construction of `encryptMessage` in `xenocrypt.js`
(lines 118-121): iterate the entries and write `inverseKey[plain] =
cipher`; a later duplicate value overwrites an earlier one, as in JS. -/
def invOf (m : JsMap) : JsMap :=
  m.foldl (fun acc e => jsSet acc e.2 e.1) []

/-- The keys of a map, in insertion order. -/
def keysOf {α : Type} (m : JsObj α) : List Char := m.map (fun e => e.1)

/-- The values of a map, in insertion order. -/
def valsOf {α : Type} (m : JsObj α) : List α := m.map (fun e => e.2)

/-- Well-formedness every reachable JS object satisfies: one entry per key.
`valsOf`-nodup is the injectivity invariant of the guess mapping. -/
def GoodMap (m : JsMap) : Prop := (keysOf m).Nodup ∧ (valsOf m).Nodup

instance : DecidablePred GoodMap := fun m => by unfold GoodMap; infer_instance

/-! ### Basic lemmas about the JS map model -/

theorem jsGet_nil {α : Type} (k : Char) : jsGet ([] : JsObj α) k = none := rfl

theorem jsGet_cons {α : Type} (e : Char × α) (m : JsObj α) (k : Char) :
    jsGet (e :: m) k = if e.1 = k then some e.2 else jsGet m k := by
  by_cases h : e.1 = k <;> simp [jsGet, List.find?_cons, h]

theorem jsGet_eq_some_iff_of_nodupKeys {α : Type} (m : JsObj α) (hk : (keysOf m).Nodup)
    (k : Char) (v : α) : jsGet m k = some v ↔ (k, v) ∈ m := by
  induction m with
  | nil => simp [jsGet]
  | cons e t ih =>
    have hk' : (keysOf t).Nodup := (List.nodup_cons.mp hk).2
    have hknot : e.1 ∉ keysOf t := (List.nodup_cons.mp hk).1
    rw [jsGet_cons]
    by_cases h : e.1 = k
    · subst h
      simp only [if_pos rfl, List.mem_cons]
      constructor
      · rintro h'
        left
        cases e
        simp_all
      · rintro (h' | h')
        · cases e; simp_all
        · exact absurd (List.mem_map_of_mem (fun e => e.1) h') (by simpa [keysOf] using hknot)
    · rw [if_neg h, ih hk']
      simp only [List.mem_cons]
      constructor
      · exact fun h' => Or.inr h'
      · rintro (h' | h')
        · cases e; simp_all
        · exact h'

theorem mem_of_jsGet_eq_some {α : Type} {m : JsObj α} {k : Char} {v : α} (h : jsGet m k = some v) :
    (k, v) ∈ m := by
  unfold jsGet at h
  rcases hf : m.find? (fun e => e.1 = k) with _ | e
  · rw [hf] at h; simp at h
  · rw [hf] at h
    simp only [Option.map_some'] at h
    have he : e ∈ m := List.mem_of_find?_eq_some hf
    have hp := List.find?_some hf
    have : e.1 = k := by simpa using hp
    cases e
    simp_all

theorem jsGet_isSome_iff {α : Type} (m : JsObj α) (k : Char) :
    (jsGet m k).isSome ↔ k ∈ keysOf m := by
  unfold jsGet keysOf
  rw [Option.isSome_map']
  rw [List.find?_isSome]
  constructor
  · rintro ⟨e, he, hp⟩
    have : e.1 = k := by simpa using hp
    exact this ▸ List.mem_map_of_mem _ he
  · rintro h
    rcases List.mem_map.mp h with ⟨e, he, hk⟩
    exact ⟨e, he, by simpa using hk⟩

theorem jsGet_eq_none_iff {α : Type} (m : JsObj α) (k : Char) :
    jsGet m k = none ↔ k ∉ keysOf m := by
  rw [← jsGet_isSome_iff, Option.isSome_iff_ne_none]
  tauto

/-- Entries of a key-nodup map with the same key coincide. -/
theorem entry_eq_of_nodupKeys {α : Type} {m : JsObj α} (hk : (keysOf m).Nodup)
    {e₁ e₂ : Char × α} (h₁ : e₁ ∈ m) (h₂ : e₂ ∈ m) (h : e₁.1 = e₂.1) :
    e₁ = e₂ := by
  induction m with
  | nil => cases h₁
  | cons e t ih =>
    have hk' : (keysOf t).Nodup := (List.nodup_cons.mp hk).2
    have hknot : e.1 ∉ keysOf t := (List.nodup_cons.mp hk).1
    rcases List.mem_cons.mp h₁ with rfl | h₁'
    · rcases List.mem_cons.mp h₂ with rfl | h₂'
      · rfl
      · exact absurd (h ▸ List.mem_map_of_mem (fun e => e.1) h₂') hknot
    · rcases List.mem_cons.mp h₂ with rfl | h₂'
      · exact absurd (h ▸ List.mem_map_of_mem (fun e => e.1) h₁') hknot
      · exact ih hk' h₁' h₂'

/-- Entries of a value-nodup map with the same value coincide. -/
theorem entry_eq_of_nodupVals {α : Type} {m : JsObj α} (hv : (valsOf m).Nodup)
    {e₁ e₂ : Char × α} (h₁ : e₁ ∈ m) (h₂ : e₂ ∈ m) (h : e₁.2 = e₂.2) :
    e₁ = e₂ := by
  induction m with
  | nil => cases h₁
  | cons e t ih =>
    have hv' : (valsOf t).Nodup := (List.nodup_cons.mp hv).2
    have hvnot : e.2 ∉ valsOf t := (List.nodup_cons.mp hv).1
    rcases List.mem_cons.mp h₁ with rfl | h₁'
    · rcases List.mem_cons.mp h₂ with rfl | h₂'
      · rfl
      · exact absurd (h ▸ List.mem_map_of_mem (fun e => e.2) h₂') hvnot
    · rcases List.mem_cons.mp h₂ with rfl | h₂'
      · exact absurd (h ▸ List.mem_map_of_mem (fun e => e.2) h₁') hvnot
      · exact ih hv' h₁' h₂'

theorem mem_jsDelete {α : Type} (m : JsObj α) (k : Char) (e : Char × α) :
    e ∈ jsDelete m k ↔ e ∈ m ∧ e.1 ≠ k := by
  simp [jsDelete, List.mem_filter]

theorem jsGet_jsDelete_self {α : Type} (m : JsObj α) (k : Char) : jsGet (jsDelete m k) k = none := by
  rw [jsGet_eq_none_iff]
  intro hmem
  rcases List.mem_map.mp hmem with ⟨e, he, hk⟩
  exact ((mem_jsDelete m k e).mp he).2 hk

theorem jsGet_jsDelete_ne {α : Type} (m : JsObj α) (k k' : Char) (h : k' ≠ k) :
    jsGet (jsDelete m k) k' = jsGet m k' := by
  induction m with
  | nil => rfl
  | cons e t ih =>
    by_cases hek : e.1 = k
    · have : jsDelete (e :: t) k = jsDelete t k := by
        simp [jsDelete, hek]
      rw [this, ih, jsGet_cons, if_neg (by rw [hek]; exact fun hh => h hh.symm)]
    · have : jsDelete (e :: t) k = e :: jsDelete t k := by
        simp [jsDelete, hek]
      rw [this, jsGet_cons, jsGet_cons, ih]

theorem jsDelete_good (m : JsMap) (k : Char) (h : GoodMap m) : GoodMap (jsDelete m k) := by
  obtain ⟨hk, hv⟩ := h
  have hsub : List.Sublist (jsDelete m k) m := List.filter_sublist m
  unfold GoodMap keysOf valsOf
  unfold keysOf at hk
  unfold valsOf at hv
  exact ⟨(hsub.map (fun e => e.1)).nodup hk, (hsub.map (fun e => e.2)).nodup hv⟩

theorem mem_jsSet {α : Type} (m : JsObj α) (k : Char) (v : α) (e : Char × α) :
    e ∈ jsSet m k v ↔ (e ∈ m ∧ e.1 ≠ k) ∨ e = (k, v) := by
  unfold jsSet
  by_cases hany : m.any (fun e => e.1 = k)
  · rw [if_pos hany]
    simp only [List.mem_map]
    constructor
    · rintro ⟨e', he', heq⟩
      by_cases h' : e'.1 = k
      · right; rw [if_pos h'] at heq; exact heq.symm
      · left; rw [if_neg h'] at heq; exact ⟨heq ▸ he', heq ▸ h'⟩
    · rintro (⟨he, hne⟩ | rfl)
      · exact ⟨e, he, by rw [if_neg hne]⟩
      · rcases List.any_eq_true.mp hany with ⟨e', he', hp⟩
        exact ⟨e', he', by rw [if_pos (by simpa using hp)]⟩
  · rw [if_neg hany]
    simp only [List.mem_append, List.mem_singleton]
    constructor
    · rintro (he | he)
      · left
        refine ⟨he, fun hk => hany ?_⟩
        exact List.any_eq_true.mpr ⟨e, he, by simpa using hk⟩
      · right; exact he
    · rintro (⟨he, _⟩ | rfl)
      · left; exact he
      · right; rfl

theorem jsSet_eq_append {α : Type} (m : JsObj α) (k : Char) (v : α) (h : ∀ e ∈ m, e.1 ≠ k) :
    jsSet m k v = m ++ [(k, v)] := by
  unfold jsSet
  rw [if_neg]
  intro hany
  rcases List.any_eq_true.mp hany with ⟨e, he, hp⟩
  exact h e he (by simpa using hp)

theorem jsGet_map_update_self {α : Type} (m : JsObj α) (k : Char) (v : α)
    (hany : m.any (fun e => e.1 = k) = true) :
    jsGet (m.map (fun e => if e.1 = k then (k, v) else e)) k = some v := by
  induction m with
  | nil => cases hany
  | cons e t ih =>
    by_cases h1 : e.1 = k
    · rw [List.map_cons, if_pos h1, jsGet_cons, if_pos rfl]
    · rw [List.map_cons, if_neg h1, jsGet_cons, if_neg h1]
      apply ih
      rcases List.any_eq_true.mp hany with ⟨e', he', hp'⟩
      rcases List.mem_cons.mp he' with rfl | he''
      · exact absurd (by simpa using hp') h1
      · exact List.any_eq_true.mpr ⟨e', he'', hp'⟩

theorem jsGet_append_single_self {α : Type} (m : JsObj α) (k : Char) (v : α)
    (h : ∀ e ∈ m, e.1 ≠ k) :
    jsGet (m ++ [(k, v)]) k = some v := by
  induction m with
  | nil => simp [jsGet_cons, jsGet_nil]
  | cons e t ih =>
    rw [List.cons_append, jsGet_cons, if_neg (h e (List.mem_cons_self e t))]
    exact ih (fun e' he' => h e' (List.mem_cons_of_mem e he'))

theorem jsGet_jsSet_self {α : Type} (m : JsObj α) (k : Char) (v : α) : jsGet (jsSet m k v) k = some v := by
  unfold jsSet
  by_cases hany : m.any (fun e => e.1 = k)
  · rw [if_pos hany]
    exact jsGet_map_update_self m k v hany
  · rw [if_neg hany]
    apply jsGet_append_single_self
    intro e he hk
    exact hany (List.any_eq_true.mpr ⟨e, he, by simpa using hk⟩)

theorem jsGet_map_update {α : Type} (m : JsObj α) (k : Char) (v : α) (k' : Char) (h : k' ≠ k) :
    jsGet (m.map (fun e => if e.1 = k then (k, v) else e)) k' = jsGet m k' := by
  induction m with
  | nil => rfl
  | cons e t ih =>
    by_cases h1 : e.1 = k
    · rw [List.map_cons, if_pos h1, jsGet_cons, jsGet_cons,
        if_neg (fun hh : k = k' => h hh.symm), if_neg (fun hh : e.1 = k' => h (h1 ▸ hh).symm)]
      exact ih
    · rw [List.map_cons, if_neg h1, jsGet_cons, jsGet_cons]
      by_cases h2 : e.1 = k'
      · rw [if_pos h2, if_pos h2]
      · rw [if_neg h2, if_neg h2]
        exact ih

theorem jsGet_append_single {α : Type} (m : JsObj α) (k : Char) (v : α) (k' : Char) (h : k' ≠ k) :
    jsGet (m ++ [(k, v)]) k' = jsGet m k' := by
  induction m with
  | nil =>
    rw [List.nil_append, jsGet_cons, if_neg (fun hh : k = k' => h hh.symm), jsGet_nil]
  | cons e t ih =>
    rw [List.cons_append, jsGet_cons, jsGet_cons]
    by_cases h2 : e.1 = k'
    · rw [if_pos h2, if_pos h2]
    · rw [if_neg h2, if_neg h2]
      exact ih

theorem jsGet_jsSet_ne {α : Type} (m : JsObj α) (k : Char) (v : α) (k' : Char) (h : k' ≠ k) :
    jsGet (jsSet m k v) k' = jsGet m k' := by
  unfold jsSet
  by_cases hany : m.any (fun e => e.1 = k)
  · rw [if_pos hany]
    exact jsGet_map_update m k v k' h
  · rw [if_neg hany]
    exact jsGet_append_single m k v k' h

/-- Folding fresh-key writes over a JS object appends the written entries
in order. -/
theorem foldl_jsSet_eq {α β : Type} (l : List α) (f : α → Char) (g : α → β) (m : JsObj β)
    (hfresh : ∀ a ∈ l, ∀ e ∈ m, e.1 ≠ f a) (hnd : (l.map f).Nodup) :
    l.foldl (fun acc a => jsSet acc (f a) (g a)) m = m ++ l.map (fun a => (f a, g a)) := by
  induction l generalizing m with
  | nil => simp
  | cons a t ih =>
    rw [List.foldl_cons, jsSet_eq_append m (f a) (g a)
      (fun e he => hfresh a (List.mem_cons_self a t) e he)]
    rw [List.map_cons] at hnd
    have hnd' : (t.map f).Nodup := (List.nodup_cons.mp hnd).2
    have hfa : f a ∉ t.map f := (List.nodup_cons.mp hnd).1
    rw [ih (m ++ [(f a, g a)]) ?_ hnd']
    · simp
    · intro b hb e he
      rcases List.mem_append.mp he with he' | he'
      · exact hfresh b (List.mem_cons_of_mem a hb) e he'
      · rcases List.mem_singleton.mp he' with rfl
        intro hk
        apply hfa
        rw [show f a = f b from hk]
        exact List.mem_map_of_mem f hb

theorem map_update_of_not_mem {α : Type} (m : JsObj α) (k : Char) (v : α)
    (h : k ∉ keysOf m) :
    m.map (fun e => if e.1 = k then (k, v) else e) = m := by
  induction m with
  | nil => rfl
  | cons e t ih =>
    have h1 : ¬ e.1 = k := fun hk => h (by rw [← hk]; exact List.mem_cons_self _ _)
    rw [List.map_cons, if_neg h1, ih (fun hk => h (List.mem_cons_of_mem _ hk))]

theorem jsSet_cons_eq {α : Type} (e : Char × α) (t : JsObj α) (k : Char) (v : α)
    (he : e.1 = k) (ht : k ∉ keysOf t) :
    jsSet (e :: t) k v = (k, v) :: t := by
  unfold jsSet
  rw [if_pos (List.any_eq_true.mpr ⟨e, List.mem_cons_self e t, by simpa using he⟩)]
  rw [List.map_cons, if_pos he, map_update_of_not_mem t k v ht]

theorem jsSet_cons_ne {α : Type} (e : Char × α) (t : JsObj α) (k : Char) (v : α)
    (he : ¬ e.1 = k) :
    jsSet (e :: t) k v = e :: jsSet t k v := by
  unfold jsSet
  by_cases hany : t.any (fun e => e.1 = k)
  · rw [if_pos, if_pos hany, List.map_cons, if_neg he]
    rcases List.any_eq_true.mp hany with ⟨e', he', hp'⟩
    exact List.any_eq_true.mpr ⟨e', List.mem_cons_of_mem e he', hp'⟩
  · rw [if_neg, if_neg hany, List.cons_append]
    intro hany'
    rcases List.any_eq_true.mp hany' with ⟨e', he', hp'⟩
    rcases List.mem_cons.mp he' with rfl | he''
    · exact he (by simpa using hp')
    · exact hany (List.any_eq_true.mpr ⟨e', he'', hp'⟩)

theorem keysOf_jsSet_mem {α : Type} (m : JsObj α) (k : Char) (v : α) (x : Char)
    (h : x ∈ keysOf (jsSet m k v)) : x ∈ keysOf m ∨ x = k := by
  rcases List.mem_map.mp h with ⟨e, he, hx⟩
  rcases (mem_jsSet m k v e).mp he with ⟨he', _⟩ | rfl
  · exact Or.inl (hx ▸ List.mem_map_of_mem _ he')
  · exact Or.inr hx.symm

theorem valsOf_jsSet_mem {α : Type} (m : JsObj α) (k : Char) (v : α) (x : α)
    (h : x ∈ valsOf (jsSet m k v)) : x ∈ valsOf m ∨ x = v := by
  rcases List.mem_map.mp h with ⟨e, he, hx⟩
  rcases (mem_jsSet m k v e).mp he with ⟨he', _⟩ | rfl
  · exact Or.inl (hx ▸ List.mem_map_of_mem _ he')
  · exact Or.inr hx.symm

/-- Writing `m[k] = v` preserves well-formedness, provided no entry other
than the one at `k` already holds the value `v`.  This is exactly the
state after the conflict-resolution step of the input handlers. -/
theorem jsSet_good (m : JsMap) (k v : Char) (hg : GoodMap m)
    (hno : ∀ e ∈ m, e.2 = v → e.1 = k) : GoodMap (jsSet m k v) := by
  induction m with
  | nil =>
    unfold jsSet
    simp [GoodMap, keysOf, valsOf]
  | cons e t ih =>
    obtain ⟨hk, hv⟩ := hg
    have hknot : e.1 ∉ keysOf t := (List.nodup_cons.mp hk).1
    have hvnot : e.2 ∉ valsOf t := (List.nodup_cons.mp hv).1
    have hgt : GoodMap t := ⟨(List.nodup_cons.mp hk).2, (List.nodup_cons.mp hv).2⟩
    by_cases he : e.1 = k
    · rw [jsSet_cons_eq e t k v he (he ▸ hknot)]
      constructor
      · exact List.nodup_cons.mpr ⟨he ▸ hknot, hgt.1⟩
      · refine List.nodup_cons.mpr ⟨?_, hgt.2⟩
        intro hvmem
        rcases List.mem_map.mp hvmem with ⟨e', he', hx⟩
        have : e'.1 = k := hno e' (List.mem_cons_of_mem e he') hx
        exact (he ▸ hknot) (this ▸ List.mem_map_of_mem _ he')
    · rw [jsSet_cons_ne e t k v he]
      have ihg := ih hgt (fun e' he' hv' => hno e' (List.mem_cons_of_mem e he') hv')
      constructor
      · refine List.nodup_cons.mpr ⟨?_, ihg.1⟩
        intro hmem
        rcases keysOf_jsSet_mem t k v e.1 hmem with h' | h'
        · exact hknot h'
        · exact he h'
      · refine List.nodup_cons.mpr ⟨?_, ihg.2⟩
        intro hmem
        rcases valsOf_jsSet_mem t k v e.2 hmem with h' | h'
        · exact hvnot h'
        · exact he (hno e (List.mem_cons_self e t) h')

namespace Xeno

/-- Constant `ALPHABET = 'ABCDEFGHIJKLMNÑOPQRSTUVWXYZ'` of `xenocrypt.js`
line 19.  In the source bytes the letter between `N` and `O` is
mojibake-corrupted into the two characters U+00C3 and U+2018, so the
constant actually holds 28 characters; the constant is built here from
ASCII literals and explicit code points to reproduce those bytes
exactly. -/
def ALPHABET : List Char :=
  "ABCDEFGHIJKLMN".toList ++ [Char.ofNat 195, Char.ofNat 8216] ++ "OPQRSTUVWXYZ".toList

theorem ALPHABET_length : ALPHABET.length = 28 := by decide

theorem ALPHABET_nodupX : ALPHABET.Nodup := by decide

/-! ### calculateFrequency (`xenocrypt.js` lines 55-67) -/

/-- Line 58, `ALPHABET.split('').forEach(char => counts[char] = 0)`. -/
def initCounts : JsObj Nat := ALPHABET.map (fun c => (c, 0))

/-- Line 62, `counts[char]++`: in-place increment of the entry for `char` (the
entry is always present when this runs, since every alphabet character
was initialised). -/
def bump (counts : JsObj Nat) (c : Char) : JsObj Nat :=
  counts.map (fun e => if e.1 = c then (e.1, e.2 + 1) else e)

/-- Function `calculateFrequency`: count every `ALPHABET` character of the
uppercased ciphertext. -/
def calculateFrequency (ciphertext : List Char) : JsObj Nat :=
  (jsUpperList ciphertext).foldl
    (fun counts ch => if ALPHABET.contains ch then bump counts ch else counts) initCounts

/-! ### generateRandomKey (`xenocrypt.js` lines 74-108) -/

/-- The fixed-point scan of the repair loop (lines 84-98): the first index
`i` with `cipherSource[i] === plainTarget[i]`, where `cipherSource` is
`ALPHABET` in order. -/
def firstFixedPoint (arr : List Char) : Option Nat :=
  (List.range ALPHABET.length).find? (fun i => arr[i]? = ALPHABET[i]?)

/-- Number of fixed points; the termination measure of the repair loop. -/
def fixedPointCount (arr : List Char) : Nat :=
  ((Finset.range ALPHABET.length).filter (fun i => arr[i]? = ALPHABET[i]?)).card

/-- The destructuring swap `[a[i], a[j]] = [a[j], a[i]]` (line 93). -/
def swapAt (arr : List Char) (i j : Nat) : List Char :=
  (arr.set i (arr.getD j 'A')).set j (arr.getD i 'A')

theorem firstFixedPoint_some {arr : List Char} {i : Nat}
    (h : firstFixedPoint arr = some i) :
    i < ALPHABET.length ∧ arr[i]? = ALPHABET[i]? := by
  have hmem := List.mem_of_find?_eq_some h
  have hp := List.find?_some h
  exact ⟨List.mem_range.mp hmem, by simpa using hp⟩

theorem firstFixedPoint_none {arr : List Char}
    (h : firstFixedPoint arr = none) :
    ∀ i < ALPHABET.length, ¬ arr[i]? = ALPHABET[i]? := by
  intro i hi
  have := List.find?_eq_none.mp h i (List.mem_range.mpr hi)
  simpa using this

theorem swapAt_getElem?_fst (arr : List Char) (i j : Nat) (hi : i < arr.length)
    (hj : j < arr.length) (hne : i ≠ j) : (swapAt arr i j)[i]? = arr[j]? := by
  unfold swapAt
  rw [List.getElem?_set_ne (fun h => hne h.symm),
    List.getElem?_set_eq_of_lt _ (by simpa using hi),
    List.getD_eq_getElem?_getD, List.getElem?_eq_getElem hj]
  rfl

theorem swapAt_getElem?_snd (arr : List Char) (i j : Nat) (hi : i < arr.length)
    (hj : j < arr.length) : (swapAt arr i j)[j]? = arr[i]? := by
  unfold swapAt
  rw [List.getElem?_set_eq_of_lt _ (by simpa using hj),
    List.getD_eq_getElem?_getD, List.getElem?_eq_getElem hi]
  rfl

theorem swapAt_getElem?_other (arr : List Char) (i j k : Nat)
    (hki : k ≠ i) (hkj : k ≠ j) : (swapAt arr i j)[k]? = arr[k]? := by
  unfold swapAt
  rw [List.getElem?_set_ne (fun h => hkj h.symm), List.getElem?_set_ne (fun h => hki h.symm)]

theorem swapAt_length (arr : List Char) (i j : Nat) :
    (swapAt arr i j).length = arr.length := by
  unfold swapAt
  rw [List.length_set, List.length_set]

/-- One repair swap strictly decreases the number of fixed points (on a
duplicate-free list of the right length). -/
theorem fixedPointCount_swap_lt (arr : List Char) (i : Nat)
    (hfp : firstFixedPoint arr = some i) (hnd : arr.Nodup)
    (hlen : arr.length = ALPHABET.length) :
    fixedPointCount (swapAt arr i ((i + 1) % ALPHABET.length)) < fixedPointCount arr := by
  obtain ⟨hi, hfix⟩ := firstFixedPoint_some hfp
  set j := (i + 1) % ALPHABET.length with hj
  have hjlt : j < ALPHABET.length := Nat.mod_lt _ (by rw [ALPHABET_length]; omega)
  have hij : i ≠ j := by
    rw [hj]
    rcases Nat.lt_or_ge (i + 1) ALPHABET.length with h | h
    · rw [Nat.mod_eq_of_lt h]; omega
    · have h1 : i + 1 = ALPHABET.length := by omega
      rw [← h1, Nat.mod_self]
      rw [ALPHABET_length] at h1
      omega
  have hilen : i < arr.length := by rw [hlen]; exact hi
  have hjlen : j < arr.length := by rw [hlen]; exact hjlt
  apply Finset.card_lt_card
  constructor
  · intro k hk
    rw [Finset.mem_filter] at hk ⊢
    obtain ⟨hkr, hkfix⟩ := hk
    have hklt : k < ALPHABET.length := Finset.mem_range.mp hkr
    refine ⟨hkr, ?_⟩
    by_cases hki : k = i
    · exfalso
      subst hki
      rw [swapAt_getElem?_fst arr k j hilen hjlen hij] at hkfix
      have : arr[j]? = arr[k]? := by rw [hkfix, hfix]
      have := List.getElem?_inj hjlen hnd this
      exact hij this.symm
    · by_cases hkj : k = j
      · exfalso
        subst hkj
        rw [swapAt_getElem?_snd arr i j hilen hjlen] at hkfix
        rw [hfix] at hkfix
        have := List.getElem?_inj hi ALPHABET_nodupX hkfix
        exact hij this
      · rw [swapAt_getElem?_other arr i j k hki hkj] at hkfix
        exact hkfix
  · intro hsub
    have hmem : i ∈ (Finset.range ALPHABET.length).filter
        (fun k => arr[k]? = ALPHABET[k]?) := by
      rw [Finset.mem_filter]
      exact ⟨Finset.mem_range.mpr hi, hfix⟩
    have hmem' := hsub hmem
    rw [Finset.mem_filter] at hmem'
    have h2 := hmem'.2
    rw [swapAt_getElem?_fst arr i j hilen hjlen hij] at h2
    have := List.getElem?_inj hjlen hnd (h2.trans hfix.symm)
    exact hij this.symm

/-- The repair loop of `generateRandomKey` (lines 80-99): while some index
is a fixed point, swap it with the cyclically next position and rescan.
The `Nodup`-and-length guard is the termination argument; it holds
invariantly on the reachable inputs (shuffles of `ALPHABET`), so the
`else` branch is never taken there (on a list with duplicates the JS loop
itself would not terminate). -/
def fixDerangement (arr : List Char) : List Char :=
  match hfp : firstFixedPoint arr with
  | none => arr
  | some i =>
    if hd : arr.Nodup ∧ arr.length = ALPHABET.length then
      fixDerangement (swapAt arr i ((i + 1) % ALPHABET.length))
    else arr
termination_by fixedPointCount arr
decreasing_by exact fixedPointCount_swap_lt arr i hfp hd.1 hd.2

theorem cons_set_perm (t : List Char) (m : Nat) (x d : Char) (hm : m < t.length) :
    List.Perm (t.getD m d :: t.set m x) (x :: t) := by
  induction t generalizing m with
  | nil => cases hm
  | cons y t' ih =>
    cases m with
    | zero =>
      rw [List.getD_cons_zero, List.set_cons_zero]
      exact List.Perm.swap x y t'
    | succ m' =>
      rw [List.getD_cons_succ, List.set_cons_succ]
      have hm' : m' < t'.length := by simpa using hm
      have s1 : List.Perm (t'.getD m' d :: y :: t'.set m' x)
          (y :: t'.getD m' d :: t'.set m' x) := List.Perm.swap y _ _
      have s2 : List.Perm (y :: t'.getD m' d :: t'.set m' x) (y :: x :: t') :=
        List.Perm.cons y (ih m' hm')
      have s3 : List.Perm (y :: x :: t') (x :: y :: t') := List.Perm.swap x y t'
      exact (s1.trans s2).trans s3

theorem swapAt_perm (arr : List Char) (i j : Nat) (hi : i < arr.length)
    (hj : j < arr.length) : List.Perm (swapAt arr i j) arr := by
  unfold swapAt
  induction arr generalizing i j with
  | nil => cases hi
  | cons x t ih =>
    cases i with
    | zero =>
      cases j with
      | zero =>
        rw [List.getD_cons_zero, List.set_cons_zero, List.set_cons_zero]
      | succ m =>
        rw [List.getD_cons_succ, List.getD_cons_zero, List.set_cons_zero,
          List.set_cons_succ]
        exact cons_set_perm t m x 'A' (by simpa using hj)
    | succ n =>
      cases j with
      | zero =>
        rw [List.getD_cons_zero, List.getD_cons_succ, List.set_cons_succ,
          List.set_cons_zero]
        exact cons_set_perm t n x 'A' (by simpa using hi)
      | succ m =>
        rw [List.getD_cons_succ, List.getD_cons_succ, List.set_cons_succ,
          List.set_cons_succ]
        exact List.Perm.cons x (ih n m (by simpa using hi) (by simpa using hj))

theorem fixDerangement_perm (arr : List Char) :
    List.Perm (fixDerangement arr) arr := by
  generalize hn : fixedPointCount arr = n
  induction n using Nat.strong_induction_on generalizing arr with
  | _ n ih =>
    rw [fixDerangement]
    split
    · exact List.Perm.refl arr
    · rename_i i hfp
      split
      · rename_i hd
        obtain ⟨hi, _⟩ := firstFixedPoint_some hfp
        have hjlt : (i + 1) % ALPHABET.length < ALPHABET.length :=
          Nat.mod_lt _ (by rw [ALPHABET_length]; omega)
        have hlt := fixedPointCount_swap_lt arr i hfp hd.1 hd.2
        refine (ih _ (hn ▸ hlt) _ rfl).trans ?_
        exact swapAt_perm arr i _ (hd.2 ▸ hi) (hd.2 ▸ hjlt)
      · exact List.Perm.refl arr

theorem fixDerangement_noFixedPoint (arr : List Char) (hnd : arr.Nodup)
    (hlen : arr.length = ALPHABET.length) :
    firstFixedPoint (fixDerangement arr) = none := by
  generalize hn : fixedPointCount arr = n
  induction n using Nat.strong_induction_on generalizing arr with
  | _ n ih =>
    rw [fixDerangement]
    split
    · assumption
    · rename_i i hfp
      rw [dif_pos ⟨hnd, hlen⟩]
      obtain ⟨hi, _⟩ := firstFixedPoint_some hfp
      have hjlt : (i + 1) % ALPHABET.length < ALPHABET.length :=
        Nat.mod_lt _ (by rw [ALPHABET_length]; omega)
      have hperm := swapAt_perm arr i ((i + 1) % ALPHABET.length)
        (hlen ▸ hi) (hlen ▸ hjlt)
      have hlt := fixedPointCount_swap_lt arr i hfp hnd hlen
      exact ih _ (hn ▸ hlt) _ (hperm.nodup_iff.mpr hnd)
        ((swapAt_length arr i _).trans hlen) rfl

/-- The conversion loop (lines 101-107):
`for(i = 0; i < 27; i++) keyMap[cipherSource[i]] = plainTarget[i]` —
note that it stops at index 26 although `ALPHABET` holds 28 characters,
so the final character `Z` never becomes a key. -/
def keyMapOf (plainTarget : List Char) : JsMap :=
  (List.range 27).foldl
    (fun m i => jsSet m (ALPHABET.getD i 'A') (plainTarget.getD i 'A')) []

/-- Function `generateRandomKey` (lines 74-108), with the result of the initial
random shuffle (line 77) passed in as `shuffled`: repair the shuffle into
a derangement, then convert the first 27 positions into a
`{CipherLetter: PlainLetter}` object. -/
def generateRandomKey (shuffled : List Char) : JsMap :=
  keyMapOf (fixDerangement shuffled)

theorem keyMapOf_eq (pt : List Char) :
    keyMapOf pt =
      (List.range 27).map (fun i => (ALPHABET.getD i 'A', pt.getD i 'A')) := by
  unfold keyMapOf
  rw [foldl_jsSet_eq]
  · rw [List.nil_append]
  · intro a ha e he
    cases he
  · decide

/-- The per-character step of `encryptMessage` (lines 123-131):
substitute an alphabet character through the inverted key —
`inverseKey[char] || char` falls back to the character itself when the
inverse has no entry (key values are single letters and never falsy, so
`||` only catches the missing-property case) — and pass every other
character through. -/
def encChar (key : JsMap) (c : Char) : Char :=
  if ALPHABET.contains c then (jsGet (invOf key) c).getD c else c

/-- Function `encryptMessage` (lines 116-132): uppercase the text, then apply the
per-character substitution. -/
def encryptMessage (text : List Char) (key : JsMap) : List Char :=
  (jsUpperList text).map (encChar key)

/-- The per-character decode step of `checkSolution` (lines 368-373):
alphabet characters go through the guess map (placeholder `_` when
unmapped), everything else passes through. -/
def decChar (m : JsMap) (c : Char) : Char :=
  if ALPHABET.contains c then (jsGet m c).getD '_' else c

/-- The decoded text `checkSolution` builds from the ciphertext and the
current guess map; with the solution key as the map this is decryption
with the cipher-to-plain key. -/
def decodeWith (m : JsMap) (ciphertext : List Char) : List Char :=
  ciphertext.map (decChar m)

/-- The character class kept by `replace(/[^A-Z]/g, '')` in
`checkSolution`. -/
def isUpperAZ (c : Char) : Bool := decide (65 ≤ c.toNat ∧ c.toNat ≤ 90)

/-- Function `checkSolution` (lines 366-390), as the solved/unsolved decision it
computes: decode the ciphertext through the guess map, strip everything
outside `A`-`Z` from both the decoded text and the true plaintext, and
declare the puzzle solved exactly when the two filtered strings are equal
and non-empty. -/
def checkSolution (ciphertext : List Char) (substitutionMap : JsMap)
    (plaintext : List Char) : Bool :=
  let cleanDecrypted := (decodeWith substitutionMap ciphertext).filter isUpperAZ
  let cleanPlaintext := plaintext.filter isUpperAZ
  cleanDecrypted == cleanPlaintext && decide (0 < cleanPlaintext.length)

end Xeno

namespace Rp

/-- Constant `ALPHABET = 'ABCDEFGHIJKLMNOPQRSTUVWXYZ'.split('')` (line 4 of
the React variant `src/unnamed/part_000`). -/
def ALPHABET : List Char := "ABCDEFGHIJKLMNOPQRSTUVWXYZ".toList

theorem ALPHABET_nodupR : ALPHABET.Nodup := by decide

/-- Function `normalizeText` (lines 11-13): just `toUpperCase`. -/
def normalizeText (text : List Char) : List Char := jsUpperList text

/-- Line 31, `ALPHABET.some((letter, i) => letter === shuffledAlphabet[i])`
(line 31): does the shuffle have a fixed point? -/
def hasFixedPoint (shuffled : List Char) : Bool :=
  (List.range ALPHABET.length).any (fun i => ALPHABET[i]? = shuffled[i]?)

/-- The retry loop of `generateCipher` (lines 26-38).  `shuffles n` is the
result of the `n`-th evaluation of `[...ALPHABET].sort(() => Math.random()
- 0.5)` (an arbitrary permutation, the comparator being random); the loop
starts from sample 0 and resamples while the current sample has a fixed
point, breaking after the `attempts > 100` check fires and then keeping
the freshly drawn sample 101 unchecked. -/
def pickLoop (shuffles : Nat → List Char) (attempts : Nat) (cur : List Char) :
    List Char :=
  if hasFixedPoint cur then
    if h : attempts + 1 > 100 then shuffles (attempts + 1)
    else pickLoop shuffles (attempts + 1) (shuffles (attempts + 1))
  else cur
termination_by 101 - attempts
decreasing_by omega

/-- The shuffled alphabet `generateCipher` ends up using. -/
def pickShuffled (shuffles : Nat → List Char) : List Char :=
  pickLoop shuffles 0 (shuffles 0)

/-- Build `originalMapping` (lines 41-44): `ALPHABET.forEach((plain, i) =>
originalMapping[plain] = shuffledAlphabet[i])`. -/
def originalMappingOf (shuffled : List Char) : JsMap :=
  (List.range ALPHABET.length).foldl
    (fun m i => jsSet m (ALPHABET.getD i 'A') (shuffled.getD i 'A')) []

theorem originalMappingOf_eq (sh : List Char) :
    originalMappingOf sh = (List.range ALPHABET.length).map
      (fun i => (ALPHABET.getD i 'A', sh.getD i 'A')) := by
  unfold originalMappingOf
  rw [foldl_jsSet_eq]
  · rw [List.nil_append]
  · intro a ha e he
    cases he
  · decide

/-- The per-character step of `generateCipher`'s encryption (lines
47-54): substitute an `A`-`Z` character through `originalMapping`, pass
everything else through.  (The lookup never misses — step 2 writes every
alphabet letter — so the `getD` default is irrelevant.) -/
def encChar (originalMapping : JsMap) (c : Char) : Char :=
  if ALPHABET.contains c then (jsGet originalMapping c).getD c else c

/-- Step 3 of `generateCipher` (lines 47-54): normalize, then apply the
per-character substitution. -/
def encryptQuote (originalMapping : JsMap) (quote : List Char) : List Char :=
  (normalizeText quote).map (encChar originalMapping)

/-- The underlying count map built by `getFrequency` (lines 68-75):
`frequency[char] = (frequency[char] || 0) + 1` for every alphabet
character of the text — entries are created on first occurrence only. -/
def getFrequencyCounts (text : List Char) : JsObj Nat :=
  text.foldl (fun freq c =>
    if ALPHABET.contains c then jsSet freq c ((jsGet freq c).getD 0 + 1) else freq) []

/-- The per-character step of the `currentPlaintext` memo (lines
173-188): a substituted alphabet letter shows the guess, an
unsubstituted one the placeholder `_`, everything else passes through. -/
def decChar (subs : JsMap) (c : Char) : Char :=
  if ALPHABET.contains c then (jsGet subs c).getD '_' else c

/-- The `currentPlaintext` memo (lines 173-188). -/
def currentPlaintextOf (subs : JsMap) (ciphertext : List Char) : List Char :=
  ciphertext.map (decChar subs)

/-- The character class kept by `replace(/[^A-ZÑÁÉÍÓÚ]/g, '')` in the
solution-check effect (lines 194-195): `A`-`Z` plus the six accented
letters (written as code points to keep the file ASCII). -/
def keptBySolvedFilter (c : Char) : Bool :=
  decide (65 ≤ c.toNat ∧ c.toNat ≤ 90) || decide (c.toNat = 209) ||
    decide (c.toNat = 193) || decide (c.toNat = 201) || decide (c.toNat = 205) ||
    decide (c.toNat = 211) || decide (c.toNat = 218)

/-- The solution-check effect (lines 191-202): solved exactly when the
filtered current plaintext equals the filtered true plaintext. -/
def solvedCheck (subs : JsMap) (ciphertext truePlaintext : List Char) : Bool :=
  (currentPlaintextOf subs ciphertext).filter keptBySolvedFilter ==
    truePlaintext.filter keptBySolvedFilter

end Rp

/-! ### Solver actions on the guess mapping

Both variants mutate their guess map with the same transitions; the
operation type below names each handler it models. -/

/-- A solver action on the guess map.  `input` is `handlePlainTextInput`
of `xenocrypt.js` (lines 143-219) receiving the raw content of an input
box; `assign` is `handleSubstitution` of the React variant (lines
216-240) with a cipher letter currently selected; `clear` is
`handleClearSubstitution` (lines 243-248) — the cleared-input branch of
`handlePlainTextInput` arises from `input` with unusable raw text;
`clearAll` is `clearMappings` (lines 395-402); `reveal` is `giveUp`
(lines 407-419), which replaces the map with a copy of the solution
key. -/
inductive GuessOp where
  | input (cipherChar : Char) (raw : List Char)
  | assign (selectedLetter plainLetter : Char)
  | clear (cipherChar : Char)
  | clearAll
  | reveal (correctKey : JsMap)

/-- The conflict-resolution-and-set step shared by `handlePlainTextInput`
(steps 2-3, lines 159-183) and `handleSubstitution` (lines 219-236): if
the plain letter is already the value of a different cipher letter, that
mapping is deleted first, then the new one is recorded. -/
def assignStep (m : JsMap) (cipherChar plainChar : Char) : JsMap :=
  let m1 := match m.find? (fun e => e.2 = plainChar ∧ e.1 ≠ cipherChar) with
    | some e => jsDelete m e.1
    | none => m
  jsSet m1 cipherChar plainChar

/-- The input sanitisation of `handlePlainTextInput` (lines 144-157):
uppercase, keep only the last character when more than one was entered,
and treat an empty box or a non-alphabet character as a cleared box. -/
def sanitizeInput (raw : List Char) : Option Char :=
  match (jsUpperList raw).getLast? with
  | none => none
  | some c => if Xeno.ALPHABET.contains c then some c else none

/-- Effect of one solver action on the guess map. -/
def applyGuessOp (m : JsMap) : GuessOp → JsMap
  | .input c raw =>
    match sanitizeInput raw with
    | some p => assignStep m c p
    | none => jsDelete m c
  | .assign sel p => assignStep m sel p
  | .clear c => jsDelete m c
  | .clearAll => []
  | .reveal k => k

/-- Run a sequence of solver actions starting from the empty mapping (the
state every new puzzle starts from). -/
def runGuessOps (ops : List GuessOp) : JsMap := ops.foldl applyGuessOp []

/-- The solution key installed by a `reveal` is itself a well-formed
injective map (true of every generated key). -/
def revealOk : GuessOp → Prop
  | .reveal k => GoodMap k
  | _ => True

instance (op : GuessOp) : Decidable (revealOk op) := by
  cases op <;> simp only [revealOk] <;> infer_instance

theorem assignStep_good (m : JsMap) (c p : Char) (hg : GoodMap m) :
    GoodMap (assignStep m c p) := by
  unfold assignStep
  cases hf : m.find? (fun e => e.2 = p ∧ e.1 ≠ c) with
  | none =>
    apply jsSet_good _ _ _ hg
    intro e he hv
    have hne := List.find?_eq_none.mp hf e he
    by_contra hk
    exact hne (by simpa using And.intro hv hk)
  | some e0 =>
    have he0 : e0 ∈ m := List.mem_of_find?_eq_some hf
    have hp0 := List.find?_some hf
    have hv0 : e0.2 = p ∧ e0.1 ≠ c := by simpa using hp0
    apply jsSet_good _ _ _ (jsDelete_good m e0.1 hg)
    intro e he hv
    rcases (mem_jsDelete _ _ _).mp he with ⟨hem, hk⟩
    have heq := entry_eq_of_nodupVals hg.2 hem he0 (by rw [hv, hv0.1])
    exact absurd (congrArg Prod.fst heq) hk

theorem applyGuessOp_good (m : JsMap) (op : GuessOp) (hg : GoodMap m)
    (hrev : revealOk op) : GoodMap (applyGuessOp m op) := by
  cases op with
  | input c raw =>
    rcases hs : sanitizeInput raw with _ | p
    · simpa [applyGuessOp, hs] using jsDelete_good m c hg
    · simpa [applyGuessOp, hs] using assignStep_good m c p hg
  | assign sel p => exact assignStep_good m sel p hg
  | clear c => exact jsDelete_good m c hg
  | clearAll => exact ⟨List.nodup_nil, List.nodup_nil⟩
  | reveal k => exact hrev

theorem foldl_guessOps_good (ops : List GuessOp) :
    ∀ m : JsMap, GoodMap m → (∀ op ∈ ops, revealOk op) →
      GoodMap (ops.foldl applyGuessOp m) := by
  induction ops with
  | nil =>
    intro m hm _
    simpa using hm
  | cons op t ih =>
    intro m hm h
    rw [List.foldl_cons]
    exact ih _ (applyGuessOp_good m op hm (h op (List.mem_cons_self op t)))
      (fun o ho => h o (List.mem_cons_of_mem op ho))

theorem runGuessOps_good (ops : List GuessOp) (h : ∀ op ∈ ops, revealOk op) :
    GoodMap (runGuessOps ops) :=
  foldl_guessOps_good ops [] ⟨List.nodup_nil, List.nodup_nil⟩ h

namespace Xeno

/-- The module-level mutable state of `xenocrypt.js` (lines 4-9), plus the
status text the handlers write into the message area. -/
structure AppState where
  currentCiphertext : List Char
  currentPlaintext : List Char
  substitutionMap : JsMap
  correctKey : JsMap
  frequencyMap : JsObj Nat
  message : String
deriving DecidableEq

/-- Function `generateNewPuzzle` (lines 225-252).  The randomness is passed in:
`pick` selects the quote (the in-range index `Math.floor(Math.random() *
length)` of line 232) and `shuffled` is the initial shuffle drawn inside
`generateRandomKey`.  When the puzzle list is empty the function writes
the status message of line 227 and returns at once, touching nothing
else. -/
def generateNewPuzzle (loadedPuzzles : List (List Char)) (pick : Nat)
    (shuffled : List Char) (s : AppState) : AppState :=
  if loadedPuzzles.length = 0 then
    { s with message := "Puzzles not loaded. Check console for fetch errors." }
  else
    let rawQuote := loadedPuzzles.getD (pick % loadedPuzzles.length) []
    let key := generateRandomKey shuffled
    let cipher := encryptMessage rawQuote key
    { currentCiphertext := cipher
      currentPlaintext := jsUpperList rawQuote
      substitutionMap := []
      correctKey := key
      frequencyMap := calculateFrequency cipher
      message := "New puzzle loaded! Start typing your guesses into the boxes." }

end Xeno

/-! ### Frequency-table lemmas -/

/-- Total `Object.values(frequency).reduce((sum, count) => sum + count, 0)` —
the total of the counts (computed by `getFrequency` itself as
`totalLetters`). -/
def cntSum (m : JsObj Nat) : Nat := (m.map (fun e => e.2)).sum

theorem cntSum_cons (e : Char × Nat) (t : JsObj Nat) :
    cntSum (e :: t) = e.2 + cntSum t := by
  unfold cntSum
  rw [List.map_cons, List.sum_cons]

theorem keysOf_map_preserve {α : Type} (m : JsObj α) (g : Char × α → Char × α)
    (h : ∀ e, (g e).1 = e.1) : keysOf (m.map g) = keysOf m := by
  induction m with
  | nil => rfl
  | cons e t ih =>
    unfold keysOf at ih ⊢
    rw [List.map_cons, List.map_cons, List.map_cons, h e]
    rw [ih]

theorem keysOf_bump (m : JsObj Nat) (c : Char) : keysOf (Xeno.bump m c) = keysOf m := by
  apply keysOf_map_preserve
  intro e
  by_cases h : e.1 = c
  · rw [if_pos h]
  · rw [if_neg h]

theorem bump_of_not_mem (m : JsObj Nat) (c : Char) (h : c ∉ keysOf m) :
    Xeno.bump m c = m := by
  induction m with
  | nil => rfl
  | cons e t ih =>
    have h1 : ¬ e.1 = c := fun hk => h (by rw [← hk]; exact List.mem_cons_self _ _)
    unfold Xeno.bump at ih ⊢
    rw [List.map_cons, if_neg h1, ih (fun hk => h (List.mem_cons_of_mem _ hk))]

theorem cntSum_bump (m : JsObj Nat) (c : Char) (hk : (keysOf m).Nodup)
    (hmem : c ∈ keysOf m) : cntSum (Xeno.bump m c) = cntSum m + 1 := by
  induction m with
  | nil => cases hmem
  | cons e t ih =>
    have hknot : e.1 ∉ keysOf t := (List.nodup_cons.mp hk).1
    have hkt : (keysOf t).Nodup := (List.nodup_cons.mp hk).2
    by_cases h : e.1 = c
    · have hct : c ∉ keysOf t := h ▸ hknot
      show cntSum ((if e.1 = c then (e.1, e.2 + 1) else e) :: Xeno.bump t c) = _
      rw [if_pos h, bump_of_not_mem t c hct, cntSum_cons, cntSum_cons]
      omega
    · have hmemt : c ∈ keysOf t := by
        rcases List.mem_cons.mp hmem with h' | h'
        · exact absurd h'.symm h
        · exact h'
      show cntSum ((if e.1 = c then (e.1, e.2 + 1) else e) :: Xeno.bump t c) = _
      rw [if_neg h, cntSum_cons, cntSum_cons, ih hkt hmemt]
      omega

theorem keysOf_initCounts : keysOf Xeno.initCounts = Xeno.ALPHABET := by decide

theorem calcFreq_fold_sum (l : List Char) :
    ∀ acc : JsObj Nat, (keysOf acc).Nodup →
      (∀ c : Char, Xeno.ALPHABET.contains c = true → c ∈ keysOf acc) →
      cntSum (l.foldl (fun counts ch =>
        if Xeno.ALPHABET.contains ch then Xeno.bump counts ch else counts) acc) =
      cntSum acc + (l.filter Xeno.ALPHABET.contains).length := by
  induction l with
  | nil =>
    intro acc _ _
    rw [List.foldl_nil, List.filter_nil, List.length_nil, Nat.add_zero]
  | cons c t ih =>
    intro acc hk hcov
    rw [List.foldl_cons]
    by_cases hc : Xeno.ALPHABET.contains c = true
    · rw [if_pos hc]
      have hk' : (keysOf (Xeno.bump acc c)).Nodup := by rw [keysOf_bump]; exact hk
      have hcov' : ∀ d : Char, Xeno.ALPHABET.contains d = true →
          d ∈ keysOf (Xeno.bump acc c) := by
        intro d hd
        rw [keysOf_bump]
        exact hcov d hd
      rw [ih (Xeno.bump acc c) hk' hcov',
        cntSum_bump acc c hk (hcov c hc), List.filter_cons_of_pos hc]
      rw [List.length_cons]
      omega
    · rw [if_neg hc, ih acc hk hcov,
        List.filter_cons_of_neg (by simpa using hc)]

theorem jsSet_nodupKeys {α : Type} (m : JsObj α) (k : Char) (v : α)
    (hk : (keysOf m).Nodup) : (keysOf (jsSet m k v)).Nodup := by
  induction m with
  | nil =>
    unfold jsSet
    simp [keysOf]
  | cons e t ih =>
    have hknot : e.1 ∉ keysOf t := (List.nodup_cons.mp hk).1
    have hkt : (keysOf t).Nodup := (List.nodup_cons.mp hk).2
    by_cases he : e.1 = k
    · rw [jsSet_cons_eq e t k v he (he ▸ hknot)]
      exact List.nodup_cons.mpr ⟨he ▸ hknot, hkt⟩
    · rw [jsSet_cons_ne e t k v he]
      refine List.nodup_cons.mpr ⟨?_, ih hkt⟩
      intro hmem
      rcases keysOf_jsSet_mem t k v e.1 hmem with h' | h'
      · exact hknot h'
      · exact he h'

theorem cntSum_jsSet_incr (m : JsObj Nat) (c : Char) (hk : (keysOf m).Nodup) :
    cntSum (jsSet m c ((jsGet m c).getD 0 + 1)) = cntSum m + 1 := by
  induction m with
  | nil =>
    unfold jsSet
    simp [cntSum, jsGet]
  | cons e t ih =>
    have hknot : e.1 ∉ keysOf t := (List.nodup_cons.mp hk).1
    have hkt : (keysOf t).Nodup := (List.nodup_cons.mp hk).2
    by_cases he : e.1 = c
    · rw [jsGet_cons, if_pos he, jsSet_cons_eq e t c _ he (he ▸ hknot),
        cntSum_cons, cntSum_cons]
      show e.2 + 1 + cntSum t = e.2 + cntSum t + 1
      omega
    · rw [jsGet_cons, if_neg he, jsSet_cons_ne e t c _ he, cntSum_cons, cntSum_cons,
        ih hkt]
      omega

theorem getFreq_fold_sum (l : List Char) :
    ∀ acc : JsObj Nat, (keysOf acc).Nodup →
      cntSum (l.foldl (fun freq c =>
        if Rp.ALPHABET.contains c then jsSet freq c ((jsGet freq c).getD 0 + 1)
        else freq) acc) =
      cntSum acc + (l.filter Rp.ALPHABET.contains).length := by
  induction l with
  | nil =>
    intro acc _
    rw [List.foldl_nil, List.filter_nil, List.length_nil, Nat.add_zero]
  | cons c t ih =>
    intro acc hk
    rw [List.foldl_cons]
    by_cases hc : Rp.ALPHABET.contains c = true
    · rw [if_pos hc, ih _ (jsSet_nodupKeys acc c _ hk), cntSum_jsSet_incr acc c hk,
        List.filter_cons_of_pos hc, List.length_cons]
      omega
    · rw [if_neg hc, ih acc hk, List.filter_cons_of_neg (by simpa using hc)]

theorem calcFreq_fold_keys (l : List Char) :
    ∀ acc : JsObj Nat, keysOf (l.foldl (fun counts ch =>
        if Xeno.ALPHABET.contains ch then Xeno.bump counts ch else counts) acc) =
      keysOf acc := by
  induction l with
  | nil =>
    intro acc
    rw [List.foldl_nil]
  | cons c t ih =>
    intro acc
    rw [List.foldl_cons]
    by_cases hc : Xeno.ALPHABET.contains c = true
    · rw [if_pos hc, ih (Xeno.bump acc c), keysOf_bump]
    · rw [if_neg hc, ih acc]

theorem getFreq_fold_keys (l : List Char) :
    ∀ acc : JsObj Nat, ∀ k ∈ keysOf (l.foldl (fun freq c =>
        if Rp.ALPHABET.contains c then jsSet freq c ((jsGet freq c).getD 0 + 1)
        else freq) acc), k ∈ keysOf acc ∨ k ∈ l := by
  induction l with
  | nil =>
    intro acc k hk
    exact Or.inl hk
  | cons c t ih =>
    intro acc k hk
    rw [List.foldl_cons] at hk
    by_cases hc : Rp.ALPHABET.contains c = true
    · rw [if_pos hc] at hk
      rcases ih _ k hk with h' | h'
      · rcases keysOf_jsSet_mem acc c _ k h' with h'' | h''
        · exact Or.inl h''
        · exact Or.inr (h'' ▸ List.mem_cons_self c t)
      · exact Or.inr (List.mem_cons_of_mem c h')
    · rw [if_neg hc] at hk
      rcases ih acc k hk with h' | h'
      · exact Or.inl h'
      · exact Or.inr (List.mem_cons_of_mem c h')

/-! ### Structure of generated keys -/

theorem getD_mem {l : List Char} {i : Nat} (h : i < l.length) (d : Char) :
    l.getD i d ∈ l := by
  rw [List.getD_eq_getElem?_getD, List.getElem?_eq_getElem h]
  exact List.getElem_mem h

theorem getElem?_eq_some_getD {l : List Char} {i : Nat} (h : i < l.length) (d : Char) :
    l[i]? = some (l.getD i d) := by
  rw [List.getD_eq_getElem?_getD, List.getElem?_eq_getElem h]
  rfl

theorem keysOf_keyMapOf (pt : List Char) :
    keysOf (Xeno.keyMapOf pt) =
      (List.range 27).map (fun i => Xeno.ALPHABET.getD i 'A') := by
  rw [Xeno.keyMapOf_eq]
  unfold keysOf
  rw [List.map_map]
  rfl

theorem valsOf_keyMapOf (pt : List Char) :
    valsOf (Xeno.keyMapOf pt) =
      (List.range 27).map (fun i => pt.getD i 'A') := by
  rw [Xeno.keyMapOf_eq]
  unfold valsOf
  rw [List.map_map]
  rfl

theorem mem_keyMapOf (pt : List Char) (e : Char × Char) :
    e ∈ Xeno.keyMapOf pt ↔
      ∃ i, i ∈ List.range 27 ∧ e = (Xeno.ALPHABET.getD i 'A', pt.getD i 'A') := by
  rw [Xeno.keyMapOf_eq, List.mem_map]
  constructor
  · rintro ⟨i, hi, rfl⟩
    exact ⟨i, hi, rfl⟩
  · rintro ⟨i, hi, rfl⟩
    exact ⟨i, hi, rfl⟩

/-- Function `generateRandomKey` never creates an entry for `Z` — the conversion
loop stops at index 26 of the 28-character alphabet, whose final symbol
is `Z`. -/
theorem jsGet_generateRandomKey_Z (s : List Char) :
    jsGet (Xeno.generateRandomKey s) 'Z' = none := by
  rw [jsGet_eq_none_iff]
  unfold Xeno.generateRandomKey
  rw [keysOf_keyMapOf]
  decide

/-- The repaired shuffle of a permutation of the alphabet: duplicate-free,
length 28, a permutation of the alphabet, and without fixed points. -/
theorem fixDerangement_of_perm (s : List Char)
    (hp : List.Perm s Xeno.ALPHABET) :
    (Xeno.fixDerangement s).Nodup ∧
    (Xeno.fixDerangement s).length = Xeno.ALPHABET.length ∧
    List.Perm (Xeno.fixDerangement s) Xeno.ALPHABET ∧
    Xeno.firstFixedPoint (Xeno.fixDerangement s) = none := by
  have hnd : s.Nodup := hp.nodup_iff.mpr Xeno.ALPHABET_nodupX
  have hlen : s.length = Xeno.ALPHABET.length := hp.length_eq
  have hperm : List.Perm (Xeno.fixDerangement s) Xeno.ALPHABET :=
    (Xeno.fixDerangement_perm s).trans hp
  exact ⟨hperm.nodup_iff.mpr Xeno.ALPHABET_nodupX, hperm.length_eq,
    hperm, Xeno.fixDerangement_noFixedPoint s hnd hlen⟩

/-- With duplicate-free values, the inverse-map construction is entry
reversal. -/
theorem invOf_eq (m : JsMap) (hv : (valsOf m).Nodup) :
    invOf m = m.map (fun e => (e.2, e.1)) := by
  unfold invOf
  rw [foldl_jsSet_eq m (fun e => e.2) (fun e => e.1) []
    (fun a ha e he => absurd he (List.not_mem_nil e)) hv]
  rw [List.nil_append]

theorem keysOf_invOf (m : JsMap) (hv : (valsOf m).Nodup) :
    keysOf (invOf m) = valsOf m := by
  rw [invOf_eq m hv]
  unfold keysOf valsOf
  rw [List.map_map]
  rfl

/-! ### The React variant's shuffle-retry loop -/

theorem pickLoop_cases (shuffles : Nat → List Char) (a : Nat) (cur : List Char) :
    Rp.pickLoop shuffles a cur = cur ∨
    ∃ b, Rp.pickLoop shuffles a cur = shuffles b := by
  generalize hn : 101 - a = n
  induction n using Nat.strong_induction_on generalizing a cur with
  | _ n ih =>
    rw [Rp.pickLoop]
    split
    · split
      · exact Or.inr ⟨a + 1, rfl⟩
      · rename_i hgt
        rcases ih (101 - (a + 1)) (by omega) (a + 1) (shuffles (a + 1)) rfl with h | ⟨b, h⟩
        · exact Or.inr ⟨a + 1, h⟩
        · exact Or.inr ⟨b, h⟩
    · exact Or.inl rfl

/-- If some sample among the first 101 checked ones is a derangement, the
loop returns a derangement. -/
theorem pickLoop_noFix (shuffles : Nat → List Char) (a : Nat)
    (hk : ∃ k, a ≤ k ∧ k ≤ 100 ∧ Rp.hasFixedPoint (shuffles k) = false) :
    Rp.hasFixedPoint (Rp.pickLoop shuffles a (shuffles a)) = false := by
  generalize hn : 101 - a = n
  induction n using Nat.strong_induction_on generalizing a with
  | _ n ih =>
    obtain ⟨k, hak, hk100, hkfix⟩ := hk
    rw [Rp.pickLoop]
    split
    · rename_i hcur
      have hka : k ≠ a := by
        intro h
        rw [h] at hkfix
        rw [hkfix] at hcur
        cases hcur
      split
      · rename_i hgt
        exfalso
        omega
      · rename_i hgt
        exact ih (101 - (a + 1)) (by omega) (a + 1) ⟨k, by omega, hk100, hkfix⟩ rfl
    · rename_i hcur
      exact Bool.not_eq_true _ ▸ hcur

theorem pickShuffled_perm (shuffles : Nat → List Char)
    (hp : ∀ n, List.Perm (shuffles n) Rp.ALPHABET) :
    List.Perm (Rp.pickShuffled shuffles) Rp.ALPHABET := by
  unfold Rp.pickShuffled
  rcases pickLoop_cases shuffles 0 (shuffles 0) with h | ⟨b, h⟩
  · rw [h]; exact hp 0
  · rw [h]; exact hp b

theorem keysOf_originalMappingOf (sh : List Char) :
    keysOf (Rp.originalMappingOf sh) =
      (List.range Rp.ALPHABET.length).map (fun i => Rp.ALPHABET.getD i 'A') := by
  rw [Rp.originalMappingOf_eq]
  unfold keysOf
  rw [List.map_map]
  rfl

theorem mem_originalMappingOf (sh : List Char) (e : Char × Char) :
    e ∈ Rp.originalMappingOf sh ↔
      ∃ i, i ∈ List.range Rp.ALPHABET.length ∧
        e = (Rp.ALPHABET.getD i 'A', sh.getD i 'A') := by
  rw [Rp.originalMappingOf_eq, List.mem_map]
  constructor
  · rintro ⟨i, hi, rfl⟩
    exact ⟨i, hi, rfl⟩
  · rintro ⟨i, hi, rfl⟩
    exact ⟨i, hi, rfl⟩

theorem valsOf_keyMapOf_nodup (pt : List Char) (hnd : pt.Nodup)
    (hle : 27 ≤ pt.length) : (valsOf (Xeno.keyMapOf pt)).Nodup := by
  rw [valsOf_keyMapOf]
  apply List.Nodup.map_on ?_ (List.nodup_range 27)
  intro i hi j hj hf
  have hiout : i < pt.length := Nat.lt_of_lt_of_le (List.mem_range.mp hi) hle
  have hjout : j < pt.length := Nat.lt_of_lt_of_le (List.mem_range.mp hj) hle
  apply List.getElem?_inj hiout hnd
  rw [getElem?_eq_some_getD hiout 'A', getElem?_eq_some_getD hjout 'A', hf]

theorem ALPHABET_upperFixed : ∀ c ∈ Xeno.ALPHABET, jsToUpper c = c := by decide

/-- With a constant shuffle stream the retry loop necessarily returns that
constant shuffle. -/
theorem pickShuffled_const (v : List Char) :
    Rp.pickShuffled (fun _ => v) = v := by
  unfold Rp.pickShuffled
  rcases pickLoop_cases (fun _ => v) 0 ((fun _ => v) 0) with h | ⟨b, h⟩
  · exact h
  · exact h

/-! ### Round-trip lemmas -/

/-- Looking a value of `m` up in the inverse map finds an entry of `m`
holding that value. -/
theorem jsGet_invOf_of_mem (k : JsMap) (hv : (valsOf k).Nodup) (x : Char)
    (hx : x ∈ valsOf k) :
    ∃ e, e ∈ k ∧ e.2 = x ∧ jsGet (invOf k) x = some e.1 := by
  rw [invOf_eq k hv]
  have hsome : (jsGet (k.map fun e => (e.2, e.1)) x).isSome := by
    rw [jsGet_isSome_iff]
    unfold keysOf
    rw [List.map_map]
    rcases List.mem_map.mp hx with ⟨e₀, he₀, hx₀⟩
    exact List.mem_map.mpr ⟨e₀, he₀, hx₀⟩
  obtain ⟨v, hveq⟩ := Option.isSome_iff_exists.mp hsome
  have hmem := mem_of_jsGet_eq_some hveq
  rcases List.mem_map.mp hmem with ⟨f, hf, hfe⟩
  have hf2 : f.2 = x := congrArg Prod.fst hfe
  have hf1 : f.1 = v := congrArg Prod.snd hfe
  exact ⟨f, hf, hf2, by rw [hveq, hf1]⟩

/-- Per-character round trip for `xenocrypt.js`: decoding the encryption
of a character through a total bijective key gives the character back. -/
theorem decChar_encChar (k : JsMap)
    (hknd : (keysOf k).Nodup) (hkA : ∀ c ∈ keysOf k, c ∈ Xeno.ALPHABET)
    (hvnd : (valsOf k).Nodup) (hvA : ∀ c ∈ Xeno.ALPHABET, c ∈ valsOf k)
    (x : Char) : Xeno.decChar k (Xeno.encChar k x) = x := by
  by_cases hx : Xeno.ALPHABET.contains x = true
  · have hxA : x ∈ Xeno.ALPHABET := List.elem_iff.mp hx
    obtain ⟨e, he, he2, henc⟩ := jsGet_invOf_of_mem k hvnd x (hvA x hxA)
    have hex : Xeno.encChar k x = e.1 := by
      unfold Xeno.encChar
      rw [if_pos hx, henc]
      rfl
    have he1A : e.1 ∈ Xeno.ALPHABET := hkA e.1 (List.mem_map_of_mem _ he)
    unfold Xeno.decChar
    rw [hex, if_pos (List.elem_iff.mpr he1A)]
    have : jsGet k e.1 = some e.2 := by
      rw [jsGet_eq_some_iff_of_nodupKeys k hknd]
      exact he
    rw [this, he2]
    rfl
  · have hex : Xeno.encChar k x = x := by
      unfold Xeno.encChar
      rw [if_neg hx]
    unfold Xeno.decChar
    rw [hex, if_neg hx]

/-- Per-character round trip for the React variant: the guess map that is
the inverse of the plain-to-cipher key decodes every encrypted character
back. -/
theorem rp_dec_enc_char (m : JsMap)
    (hkA : ∀ c ∈ Rp.ALPHABET, c ∈ keysOf m)
    (hvnd : (valsOf m).Nodup) (hvA : ∀ c ∈ valsOf m, c ∈ Rp.ALPHABET)
    (x : Char) : Rp.decChar (invOf m) (Rp.encChar m x) = x := by
  unfold Rp.decChar Rp.encChar
  by_cases hx : Rp.ALPHABET.contains x = true
  · have hxA : x ∈ Rp.ALPHABET := List.elem_iff.mp hx
    have hsome : (jsGet m x).isSome := (jsGet_isSome_iff m x).mpr (hkA x hxA)
    obtain ⟨v, hveq⟩ := Option.isSome_iff_exists.mp hsome
    have hmem : (x, v) ∈ m := mem_of_jsGet_eq_some hveq
    have hvmem : v ∈ valsOf m := List.mem_map_of_mem _ hmem
    have hvAZ : v ∈ Rp.ALPHABET := hvA v hvmem
    rw [if_pos hx, hveq]
    have hgd : (some v).getD x = v := rfl
    rw [hgd, if_pos (List.elem_iff.mpr hvAZ)]
    obtain ⟨e, he, he2, hinv⟩ := jsGet_invOf_of_mem m hvnd v hvmem
    have hee : e = (x, v) := entry_eq_of_nodupVals hvnd he hmem (by rw [he2])
    rw [hinv, hee]
    rfl
  · rw [if_neg hx, if_neg hx]

/-! ### Solved-check lemmas -/

theorem mem_of_getElem?_some {l : List Char} {i : Nat} {a : Char}
    (h : l[i]? = some a) : a ∈ l := by
  obtain ⟨hlt, heq⟩ := List.getElem?_eq_some.mp h
  exact heq ▸ List.getElem_mem hlt

/-- Under a total alphabet-to-alphabet key, encryption keeps alphabet
characters inside the alphabet. -/
theorem encChar_contains (k : JsMap)
    (hkA : ∀ c ∈ keysOf k, c ∈ Xeno.ALPHABET)
    (hvnd : (valsOf k).Nodup) (hvA : ∀ c ∈ Xeno.ALPHABET, c ∈ valsOf k)
    (x : Char) (hcx : Xeno.ALPHABET.contains x = true) :
    Xeno.ALPHABET.contains (Xeno.encChar k x) = true := by
  obtain ⟨e, he, he2, henc⟩ :=
    jsGet_invOf_of_mem k hvnd x (hvA x (List.elem_iff.mp hcx))
  have hex : Xeno.encChar k x = e.1 := by
    unfold Xeno.encChar
    rw [if_pos hcx, henc]
    rfl
  rw [hex]
  exact List.elem_iff.mpr (hkA e.1 (List.mem_map_of_mem _ he))

/-- The cleaned decode of a ciphertext is never longer than the cleaned
plaintext, provided every alphabet character of the plaintext is `A`-`Z`:
unmapped positions contribute a stripped placeholder and mapped positions
at most one kept letter. -/
theorem c4_len (k m : JsMap) :
    ∀ p : List Char,
      (∀ x ∈ p, Xeno.ALPHABET.contains x = true → Xeno.isUpperAZ x = true) →
      (((p.map (Xeno.encChar k)).map (Xeno.decChar m)).filter Xeno.isUpperAZ).length ≤
        (p.filter Xeno.isUpperAZ).length := by
  intro p
  induction p with
  | nil =>
    intro
    simp
  | cons x t ih =>
    intro hres
    have hrt := fun z hz => hres z (List.mem_cons_of_mem x hz)
    rw [List.map_cons, List.map_cons]
    by_cases hcx : Xeno.ALPHABET.contains x = true
    · have hAZx : Xeno.isUpperAZ x = true := hres x (List.mem_cons_self x t) hcx
      rw [List.filter_cons_of_pos hAZx]
      by_cases hg : Xeno.isUpperAZ (Xeno.decChar m (Xeno.encChar k x)) = true
      · rw [List.filter_cons_of_pos hg, List.length_cons, List.length_cons]
        exact Nat.succ_le_succ (ih hrt)
      · rw [List.filter_cons_of_neg (by simpa using hg), List.length_cons]
        exact Nat.le_succ_of_le (ih hrt)
    · have hex : Xeno.encChar k x = x := by
        unfold Xeno.encChar
        rw [if_neg hcx]
      have hdx : Xeno.decChar m x = x := by
        unfold Xeno.decChar
        rw [if_neg hcx]
      rw [hex, hdx]
      by_cases hAZ : Xeno.isUpperAZ x = true
      · rw [List.filter_cons_of_pos hAZ, List.filter_cons_of_pos hAZ,
          List.length_cons, List.length_cons]
        exact Nat.succ_le_succ (ih hrt)
      · rw [List.filter_cons_of_neg (by simpa using hAZ),
          List.filter_cons_of_neg (by simpa using hAZ)]
        exact ih hrt

theorem underscore_not_AZ : Xeno.isUpperAZ '_' = false := by decide

/-- Core of the solved check: the filtered decode equals the filtered
plaintext exactly when every alphabet character of the plaintext is
decoded back by the guess map, given a valid key and a plaintext whose
alphabet characters are all `A`-`Z`. -/
theorem c4_main (k m : JsMap)
    (hkA : ∀ c ∈ keysOf k, c ∈ Xeno.ALPHABET)
    (hvnd : (valsOf k).Nodup) (hvA : ∀ c ∈ Xeno.ALPHABET, c ∈ valsOf k) :
    ∀ p : List Char,
      (∀ x ∈ p, Xeno.ALPHABET.contains x = true → Xeno.isUpperAZ x = true) →
      (((p.map (Xeno.encChar k)).map (Xeno.decChar m)).filter Xeno.isUpperAZ =
          p.filter Xeno.isUpperAZ ↔
        ∀ x ∈ p, Xeno.ALPHABET.contains x = true →
          jsGet m (Xeno.encChar k x) = some x) := by
  intro p
  induction p with
  | nil =>
    intro
    simp
  | cons x t ih =>
    intro hres
    have hrt := fun z hz => hres z (List.mem_cons_of_mem x hz)
    have iht := ih hrt
    rw [List.map_cons, List.map_cons, List.forall_mem_cons]
    by_cases hcx : Xeno.ALPHABET.contains x = true
    · have hAZx := hres x (List.mem_cons_self x t) hcx
      rw [List.filter_cons_of_pos hAZx]
      have hcE := encChar_contains k hkA hvnd hvA x hcx
      have hdec : Xeno.decChar m (Xeno.encChar k x) =
          (jsGet m (Xeno.encChar k x)).getD '_' := by
        unfold Xeno.decChar
        rw [if_pos hcE]
      by_cases hg : Xeno.isUpperAZ (Xeno.decChar m (Xeno.encChar k x)) = true
      · rw [List.filter_cons_of_pos hg, List.cons_eq_cons]
        constructor
        · rintro ⟨hhead, htail⟩
          refine ⟨fun _ => ?_, iht.mp htail⟩
          rw [hdec] at hhead
          rcases hj : jsGet m (Xeno.encChar k x) with _ | y
          · rw [hj] at hhead
            exact absurd hAZx (by rw [← hhead]; decide)
          · rw [hj] at hhead
            exact congrArg some hhead
        · rintro ⟨hx, htail⟩
          refine ⟨?_, iht.mpr htail⟩
          rw [hdec, hx hcx]
          rfl
      · rw [List.filter_cons_of_neg (by simpa using hg)]
        constructor
        · intro habs
          exfalso
          have hlen := c4_len k m t hrt
          have := congrArg List.length habs
          rw [List.length_cons] at this
          omega
        · rintro ⟨hx, _⟩
          exfalso
          apply hg
          rw [hdec, hx hcx]
          exact hAZx
    · have hex : Xeno.encChar k x = x := by
        unfold Xeno.encChar
        rw [if_neg hcx]
      have hdx : Xeno.decChar m x = x := by
        unfold Xeno.decChar
        rw [if_neg hcx]
      rw [hex, hdx]
      by_cases hAZ : Xeno.isUpperAZ x = true
      · rw [List.filter_cons_of_pos hAZ, List.filter_cons_of_pos hAZ,
          List.cons_eq_cons]
        constructor
        · rintro ⟨_, htail⟩
          exact ⟨fun hc => absurd hc hcx, iht.mp htail⟩
        · rintro ⟨_, htail⟩
          exact ⟨rfl, iht.mpr htail⟩
      · rw [List.filter_cons_of_neg (by simpa using hAZ),
          List.filter_cons_of_neg (by simpa using hAZ)]
        constructor
        · intro h
          exact ⟨fun hc => absurd hc hcx, iht.mp h⟩
        · rintro ⟨_, htail⟩
          exact iht.mpr htail

theorem kept_of_mem_R : ∀ c ∈ Rp.ALPHABET, Rp.keptBySolvedFilter c = true := by decide

theorem underscore_not_kept : Rp.keptBySolvedFilter '_' = false := by decide

/-- Under a total `A`-`Z`-to-`A`-`Z` key, the React encryption of an
alphabet character is the key's lookup result, again an alphabet
character. -/
theorem rp_encChar_spec (m : JsMap)
    (hkA : ∀ c ∈ Rp.ALPHABET, c ∈ keysOf m)
    (hvA : ∀ c ∈ valsOf m, c ∈ Rp.ALPHABET)
    (x : Char) (hcx : Rp.ALPHABET.contains x = true) :
    jsGet m x = some (Rp.encChar m x) ∧
    Rp.ALPHABET.contains (Rp.encChar m x) = true := by
  have hxA : x ∈ Rp.ALPHABET := List.elem_iff.mp hcx
  have hsome : (jsGet m x).isSome := (jsGet_isSome_iff m x).mpr (hkA x hxA)
  obtain ⟨v, hveq⟩ := Option.isSome_iff_exists.mp hsome
  have hmem : (x, v) ∈ m := mem_of_jsGet_eq_some hveq
  have hvAZ : v ∈ Rp.ALPHABET := hvA v (List.mem_map_of_mem _ hmem)
  have hev : Rp.encChar m x = v := by
    unfold Rp.encChar
    rw [if_pos hcx, hveq]
    rfl
  rw [hev, hveq]
  exact ⟨rfl, List.elem_iff.mpr hvAZ⟩

/-- The filtered current plaintext of the React variant is never longer
than the filtered true plaintext: non-alphabet characters pass through
identically on both sides, and a substitutable position contributes at
most one kept character against exactly one on the plaintext side. -/
theorem rp4_len (m subs : JsMap) :
    ∀ q : List Char,
      (((q.map (Rp.encChar m)).map (Rp.decChar subs)).filter
          Rp.keptBySolvedFilter).length ≤
        (q.filter Rp.keptBySolvedFilter).length := by
  intro q
  induction q with
  | nil => simp
  | cons x t ih =>
    rw [List.map_cons, List.map_cons]
    by_cases hcx : Rp.ALPHABET.contains x = true
    · have hkx : Rp.keptBySolvedFilter x = true :=
        kept_of_mem_R x (List.elem_iff.mp hcx)
      rw [List.filter_cons_of_pos hkx]
      by_cases hg : Rp.keptBySolvedFilter (Rp.decChar subs (Rp.encChar m x)) = true
      · rw [List.filter_cons_of_pos hg, List.length_cons, List.length_cons]
        exact Nat.succ_le_succ ih
      · rw [List.filter_cons_of_neg (by simpa using hg), List.length_cons]
        exact Nat.le_succ_of_le ih
    · have hex : Rp.encChar m x = x := by
        unfold Rp.encChar
        rw [if_neg hcx]
      have hdx : Rp.decChar subs x = x := by
        unfold Rp.decChar
        rw [if_neg hcx]
      rw [hex, hdx]
      by_cases hk : Rp.keptBySolvedFilter x = true
      · rw [List.filter_cons_of_pos hk, List.filter_cons_of_pos hk,
          List.length_cons, List.length_cons]
        exact Nat.succ_le_succ ih
      · rw [List.filter_cons_of_neg (by simpa using hk),
          List.filter_cons_of_neg (by simpa using hk)]
        exact ih

/-- Core of the React solution check: the filtered current plaintext
equals the filtered true plaintext exactly when every alphabet character
of the plaintext is decoded back by the guess map — with no restriction
on the guess map, since the `/[^A-ZÑÁÉÍÓÚ]/` filter keeps the accented
pass-through characters symmetrically on both sides. -/
theorem rp4_main (m subs : JsMap)
    (hkA : ∀ c ∈ Rp.ALPHABET, c ∈ keysOf m)
    (hvA : ∀ c ∈ valsOf m, c ∈ Rp.ALPHABET) :
    ∀ q : List Char,
      (((q.map (Rp.encChar m)).map (Rp.decChar subs)).filter Rp.keptBySolvedFilter =
          q.filter Rp.keptBySolvedFilter ↔
        ∀ x ∈ q, Rp.ALPHABET.contains x = true →
          jsGet subs (Rp.encChar m x) = some x) := by
  intro q
  induction q with
  | nil => simp
  | cons x t ih =>
    rw [List.map_cons, List.map_cons, List.forall_mem_cons]
    by_cases hcx : Rp.ALPHABET.contains x = true
    · have hkx : Rp.keptBySolvedFilter x = true :=
        kept_of_mem_R x (List.elem_iff.mp hcx)
      rw [List.filter_cons_of_pos hkx]
      obtain ⟨hlook, hcE⟩ := rp_encChar_spec m hkA hvA x hcx
      have hdec : Rp.decChar subs (Rp.encChar m x) =
          (jsGet subs (Rp.encChar m x)).getD '_' := by
        unfold Rp.decChar
        rw [if_pos hcE]
      by_cases hg : Rp.keptBySolvedFilter (Rp.decChar subs (Rp.encChar m x)) = true
      · rw [List.filter_cons_of_pos hg, List.cons_eq_cons]
        constructor
        · rintro ⟨hhead, htail⟩
          refine ⟨fun _ => ?_, ih.mp htail⟩
          rw [hdec] at hhead
          rcases hj : jsGet subs (Rp.encChar m x) with _ | y
          · rw [hj] at hhead
            exact absurd hkx (by rw [← hhead]; decide)
          · rw [hj] at hhead
            exact congrArg some hhead
        · rintro ⟨hx, htail⟩
          refine ⟨?_, ih.mpr htail⟩
          rw [hdec, hx hcx]
          rfl
      · rw [List.filter_cons_of_neg (by simpa using hg)]
        constructor
        · intro habs
          exfalso
          have hlen := rp4_len m subs t
          have := congrArg List.length habs
          rw [List.length_cons] at this
          omega
        · rintro ⟨hx, _⟩
          exfalso
          apply hg
          rw [hdec, hx hcx]
          exact hkx
    · have hex : Rp.encChar m x = x := by
        unfold Rp.encChar
        rw [if_neg hcx]
      have hdx : Rp.decChar subs x = x := by
        unfold Rp.decChar
        rw [if_neg hcx]
      rw [hex, hdx]
      by_cases hk : Rp.keptBySolvedFilter x = true
      · rw [List.filter_cons_of_pos hk, List.filter_cons_of_pos hk,
          List.cons_eq_cons]
        constructor
        · rintro ⟨_, htail⟩
          exact ⟨fun hc => absurd hc hcx, ih.mp htail⟩
        · rintro ⟨_, htail⟩
          exact ⟨rfl, ih.mpr htail⟩
      · rw [List.filter_cons_of_neg (by simpa using hk),
          List.filter_cons_of_neg (by simpa using hk)]
        constructor
        · intro h
          exact ⟨fun hc => absurd hc hcx, ih.mp h⟩
        · rintro ⟨_, htail⟩
          exact ih.mpr htail

/-- Assembled biconditional for the React solution-check effect, in the
position form of the claim. -/
theorem c4_react (q : List Char) (m subs : JsMap) (hq : jsUpperList q = q)
    (hkA : List.Perm (keysOf m) Rp.ALPHABET)
    (hvA : List.Perm (valsOf m) Rp.ALPHABET) :
    Rp.solvedCheck subs (Rp.encryptQuote m q) q = true ↔
      ∀ (i : Nat) (y : Char), (Rp.encryptQuote m q)[i]? = some y →
        Rp.ALPHABET.contains y = true → jsGet subs y = q[i]? := by
  have hkmem : ∀ c ∈ Rp.ALPHABET, c ∈ keysOf m := fun c hc => hkA.symm.subset hc
  have hvmem : ∀ c ∈ valsOf m, c ∈ Rp.ALPHABET := fun c hc => hvA.subset hc
  have hmain := rp4_main m subs hkmem hvmem q
  have hE : Rp.encryptQuote m q = q.map (Rp.encChar m) := by
    unfold Rp.encryptQuote Rp.normalizeText
    rw [hq]
  rw [hE]
  have hcheck : Rp.solvedCheck subs (q.map (Rp.encChar m)) q = true ↔
      ((q.map (Rp.encChar m)).map (Rp.decChar subs)).filter Rp.keptBySolvedFilter =
        q.filter Rp.keptBySolvedFilter := by
    unfold Rp.solvedCheck Rp.currentPlaintextOf
    rw [beq_iff_eq]
  rw [hcheck, hmain]
  constructor
  · intro hchar i y hEi hcY
    rw [List.getElem?_map] at hEi
    rcases hpi : q[i]? with _ | x
    · rw [hpi] at hEi
      cases hEi
    · rw [hpi] at hEi
      rw [Option.map_some'] at hEi
      have hcy : Rp.encChar m x = y := Option.some_inj.mp hEi
      have hxmem : x ∈ q := mem_of_getElem?_some hpi
      by_cases hx : Rp.ALPHABET.contains x = true
      · rw [← hcy]
        exact hchar x hxmem hx
      · exfalso
        have hex : Rp.encChar m x = x := by
          unfold Rp.encChar
          rw [if_neg hx]
        rw [hex] at hcy
        rw [hcy] at hx
        exact hx hcY
  · intro hpos x hx hcx
    obtain ⟨i, hi, hieq⟩ := List.mem_iff_getElem.mp hx
    have hpi : q[i]? = some x := by
      rw [List.getElem?_eq_getElem hi, hieq]
    have hEi : (q.map (Rp.encChar m))[i]? = some (Rp.encChar m x) := by
      rw [List.getElem?_map, hpi]
      rfl
    obtain ⟨_, hcE⟩ := rp_encChar_spec m hkmem hvmem x hcx
    exact (hpos i (Rp.encChar m x) hEi hcE).trans hpi

/-! ## Claim theorems -/

/-- Claim C3. After every finite sequence of guess operations (assign,
clear, clearAll, reveal) starting from the empty mapping, the guess
mapping is an injective partial function: no two distinct cipher letters
map to the same plain letter.  (A reveal installs the solution key, which
is always a well-formed injective map — hypothesis `revealOk`.) -/
theorem claim_C3 (ops : List GuessOp) (h : ∀ op ∈ ops, revealOk op)
    (c₁ c₂ p : Char) (hne : c₁ ≠ c₂) :
    ¬ (jsGet (runGuessOps ops) c₁ = some p ∧
       jsGet (runGuessOps ops) c₂ = some p) := by
  rintro ⟨h₁, h₂⟩
  have hg := runGuessOps_good ops h
  have e₁ := mem_of_jsGet_eq_some h₁
  have e₂ := mem_of_jsGet_eq_some h₂
  have heq := entry_eq_of_nodupVals hg.2 e₁ e₂ rfl
  exact hne (congrArg Prod.fst heq)

theorem claim_C3_witness :
    (∀ op ∈ [GuessOp.assign 'Q' 'A', GuessOp.input 'R' ['x'],
        GuessOp.clear 'Q', GuessOp.clearAll, GuessOp.assign 'Q' 'A',
        GuessOp.reveal [('X', 'Y'), ('Y', 'X')]], revealOk op) ∧
    ('X' : Char) ≠ 'Y' ∧
    ¬ (jsGet (runGuessOps [GuessOp.assign 'Q' 'A', GuessOp.input 'R' ['x'],
        GuessOp.clear 'Q', GuessOp.clearAll, GuessOp.assign 'Q' 'A',
        GuessOp.reveal [('X', 'Y'), ('Y', 'X')]]) 'X' = some 'Z' ∧
       jsGet (runGuessOps [GuessOp.assign 'Q' 'A', GuessOp.input 'R' ['x'],
        GuessOp.clear 'Q', GuessOp.clearAll, GuessOp.assign 'Q' 'A',
        GuessOp.reveal [('X', 'Y'), ('Y', 'X')]]) 'Y' = some 'Z') :=
  ⟨by decide, by decide, claim_C3 _ (by decide) 'X' 'Y' 'Z' (by decide)⟩

/-- Claim C5. For every well-formed guess mapping in which cipher letter
`c₁` maps to plain letter `x`, assigning `x` to a different cipher letter
`c₂` (the conflict-resolution step shared by `handlePlainTextInput` and
`handleSubstitution`) yields a mapping in which `c₁` is unmapped and `c₂`
maps to `x`; afterwards `c₂` is the only holder of `x`, so at every
moment at most one cipher letter holds any given plain letter. -/
theorem claim_C5 (m : JsMap) (c₁ c₂ x : Char) (hg : GoodMap m)
    (h₁ : jsGet m c₁ = some x) (hne : c₂ ≠ c₁) :
    jsGet (assignStep m c₂ x) c₁ = none ∧
    jsGet (assignStep m c₂ x) c₂ = some x ∧
    ∀ d, d ≠ c₂ → jsGet (assignStep m c₂ x) d ≠ some x := by
  have he₁ : (c₁, x) ∈ m := mem_of_jsGet_eq_some h₁
  unfold assignStep
  cases hf : m.find? (fun e => e.2 = x ∧ e.1 ≠ c₂) with
  | none =>
    exfalso
    have hno := List.find?_eq_none.mp hf (c₁, x) he₁
    refine hno ?_
    have hcc : (c₁, x).2 = x ∧ (c₁, x).1 ≠ c₂ := ⟨rfl, Ne.symm hne⟩
    exact decide_eq_true hcc
  | some e0 =>
    have he0 : e0 ∈ m := List.mem_of_find?_eq_some hf
    have hp0 : e0.2 = x ∧ e0.1 ≠ c₂ := by simpa using List.find?_some hf
    have heq : e0 = (c₁, x) := entry_eq_of_nodupVals hg.2 he0 he₁ (by rw [hp0.1])
    refine ⟨?_, jsGet_jsSet_self _ _ _, ?_⟩
    · rw [jsGet_jsSet_ne _ _ _ _ (Ne.symm hne), heq]
      exact jsGet_jsDelete_self m c₁
    · intro d hd hsome
      rw [jsGet_jsSet_ne _ _ _ _ hd] at hsome
      have hmem := mem_of_jsGet_eq_some hsome
      rcases (mem_jsDelete _ _ _).mp hmem with ⟨hmm', hk⟩
      have hde : (d, x) = e0 := entry_eq_of_nodupVals hg.2 hmm' he0 (by rw [hp0.1])
      exact hk (congrArg Prod.fst hde)

theorem claim_C5_witness :
    GoodMap [('Q', 'X'), ('S', 'T')] ∧
    jsGet [('Q', 'X'), ('S', 'T')] 'Q' = some 'X' ∧ ('R' : Char) ≠ 'Q' ∧
    (jsGet (assignStep [('Q', 'X'), ('S', 'T')] 'R' 'X') 'Q' = none ∧
     jsGet (assignStep [('Q', 'X'), ('S', 'T')] 'R' 'X') 'R' = some 'X' ∧
     ∀ d, d ≠ 'R' → jsGet (assignStep [('Q', 'X'), ('S', 'T')] 'R' 'X') d ≠ some 'X') :=
  ⟨by decide, by decide, by decide,
    claim_C5 [('Q', 'X'), ('S', 'T')] 'Q' 'R' 'X' (by decide) (by decide) (by decide)⟩

/-- Claim C6 (amended). When the candidate-quote list is empty,
`generateNewPuzzle` returns at once, leaving ciphertext, true plaintext,
solution key, guess mapping and frequency table unchanged; the failure is
reported only through the fixed status message `Puzzles not loaded.
Check console for fetch errors.` written to the message area — not as a
named `EmptyPuzzleSource` error to the caller. -/
theorem claim_C6_amended (pick : Nat) (shuffled : List Char) (s : Xeno.AppState) :
    (Xeno.generateNewPuzzle [] pick shuffled s).currentCiphertext = s.currentCiphertext ∧
    (Xeno.generateNewPuzzle [] pick shuffled s).currentPlaintext = s.currentPlaintext ∧
    (Xeno.generateNewPuzzle [] pick shuffled s).correctKey = s.correctKey ∧
    (Xeno.generateNewPuzzle [] pick shuffled s).substitutionMap = s.substitutionMap ∧
    (Xeno.generateNewPuzzle [] pick shuffled s).frequencyMap = s.frequencyMap ∧
    (Xeno.generateNewPuzzle [] pick shuffled s).message =
      "Puzzles not loaded. Check console for fetch errors." :=
  ⟨rfl, rfl, rfl, rfl, rfl, rfl⟩

/-- Claim C1 (amended). Key generation yields an injective, fixed-point-free
key, but not a total bijection over the alphabet in either variant:
`generateRandomKey` of `xenocrypt.js` produces a key whose entries are
injective alphabet-to-alphabet assignments with no fixed point, yet whose
domain omits the final alphabet symbol `Z` (the conversion loop stops at
index 26 of the 28-character alphabet); the React variant's
`originalMapping` is total over `A`-`Z` and injective, and is
fixed-point-free only when one of the 101 fixed-point-checked shuffle
samples is a derangement (after 100 failed retries the code accepts fixed
points). -/
theorem claim_C1_amended :
    (∀ s : List Char, List.Perm s Xeno.ALPHABET →
      jsGet (Xeno.generateRandomKey s) 'Z' = none ∧
      (∀ e ∈ Xeno.generateRandomKey s,
        e.1 ∈ Xeno.ALPHABET ∧ e.2 ∈ Xeno.ALPHABET ∧ e.2 ≠ e.1) ∧
      (∀ e₁ ∈ Xeno.generateRandomKey s, ∀ e₂ ∈ Xeno.generateRandomKey s,
        e₁.2 = e₂.2 → e₁.1 = e₂.1)) ∧
    (∀ shuffles : Nat → List Char, (∀ n, List.Perm (shuffles n) Rp.ALPHABET) →
      (∀ c ∈ Rp.ALPHABET, ∃ p ∈ Rp.ALPHABET,
        jsGet (Rp.originalMappingOf (Rp.pickShuffled shuffles)) c = some p) ∧
      (∀ e₁ ∈ Rp.originalMappingOf (Rp.pickShuffled shuffles),
        ∀ e₂ ∈ Rp.originalMappingOf (Rp.pickShuffled shuffles),
          e₁.2 = e₂.2 → e₁.1 = e₂.1) ∧
      ((∃ k, k ≤ 100 ∧ Rp.hasFixedPoint (shuffles k) = false) →
        ∀ e ∈ Rp.originalMappingOf (Rp.pickShuffled shuffles), e.2 ≠ e.1)) := by
  constructor
  · intro s hp
    obtain ⟨hnd, hlen, hperm, hnofix⟩ := fixDerangement_of_perm s hp
    refine ⟨jsGet_generateRandomKey_Z s, ?_, ?_⟩
    · intro e he
      rw [Xeno.generateRandomKey, mem_keyMapOf] at he
      obtain ⟨i, hir, rfl⟩ := he
      have hi27 : i < 27 := List.mem_range.mp hir
      have hiA : i < Xeno.ALPHABET.length := by
        rw [Xeno.ALPHABET_length]; omega
      have hiout : i < (Xeno.fixDerangement s).length := by
        rw [hlen]; exact hiA
      refine ⟨getD_mem hiA 'A', hperm.subset (getD_mem hiout 'A'), ?_⟩
      intro heq
      apply Xeno.firstFixedPoint_none hnofix i hiA
      rw [getElem?_eq_some_getD hiout 'A', getElem?_eq_some_getD hiA 'A']
      exact congrArg some heq
    · intro e₁ he₁ e₂ he₂ hv
      rw [Xeno.generateRandomKey, mem_keyMapOf] at he₁ he₂
      obtain ⟨i, hir, rfl⟩ := he₁
      obtain ⟨j, hjr, rfl⟩ := he₂
      have hi27 : i < 27 := List.mem_range.mp hir
      have hj27 : j < 27 := List.mem_range.mp hjr
      have hiout : i < (Xeno.fixDerangement s).length := by
        rw [hlen, Xeno.ALPHABET_length]; omega
      have hjout : j < (Xeno.fixDerangement s).length := by
        rw [hlen, Xeno.ALPHABET_length]; omega
      have hvq : (Xeno.fixDerangement s)[i]? = (Xeno.fixDerangement s)[j]? := by
        rw [getElem?_eq_some_getD hiout 'A', getElem?_eq_some_getD hjout 'A']
        exact congrArg some hv
      have hij : i = j := List.getElem?_inj hiout hnd hvq
      rw [hij]
  · intro shuffles hps
    have hsh : List.Perm (Rp.pickShuffled shuffles) Rp.ALPHABET :=
      pickShuffled_perm shuffles hps
    have hnd : (Rp.pickShuffled shuffles).Nodup :=
      hsh.nodup_iff.mpr Rp.ALPHABET_nodupR
    have hlen : (Rp.pickShuffled shuffles).length = Rp.ALPHABET.length :=
      hsh.length_eq
    refine ⟨?_, ?_, ?_⟩
    · intro c hc
      obtain ⟨i, hiA, hieq⟩ := List.mem_iff_getElem.mp hc
      have hiout : i < (Rp.pickShuffled shuffles).length := by rw [hlen]; exact hiA
      refine ⟨(Rp.pickShuffled shuffles).getD i 'A',
        hsh.subset (getD_mem hiout 'A'), ?_⟩
      rw [jsGet_eq_some_iff_of_nodupKeys _ ?_, mem_originalMappingOf]
      · refine ⟨i, List.mem_range.mpr hiA, ?_⟩
        have : Rp.ALPHABET.getD i 'A' = c := by
          have h1 := getElem?_eq_some_getD hiA 'A'
          rw [List.getElem?_eq_getElem hiA, hieq] at h1
          exact (Option.some_inj.mp h1).symm
        rw [this]
      · rw [keysOf_originalMappingOf]
        decide
    · intro e₁ he₁ e₂ he₂ hv
      rw [mem_originalMappingOf] at he₁ he₂
      obtain ⟨i, hir, rfl⟩ := he₁
      obtain ⟨j, hjr, rfl⟩ := he₂
      have hi26 : i < Rp.ALPHABET.length := List.mem_range.mp hir
      have hj26 : j < Rp.ALPHABET.length := List.mem_range.mp hjr
      have hiout : i < (Rp.pickShuffled shuffles).length := by rw [hlen]; exact hi26
      have hjout : j < (Rp.pickShuffled shuffles).length := by rw [hlen]; exact hj26
      have hvq : (Rp.pickShuffled shuffles)[i]? = (Rp.pickShuffled shuffles)[j]? := by
        rw [getElem?_eq_some_getD hiout 'A', getElem?_eq_some_getD hjout 'A']
        exact congrArg some hv
      have hij : i = j := List.getElem?_inj hiout hnd hvq
      rw [hij]
    · rintro ⟨k, hk100, hkfix⟩ e he
      have hnofix : Rp.hasFixedPoint (Rp.pickShuffled shuffles) = false :=
        pickLoop_noFix shuffles 0 ⟨k, Nat.zero_le k, hk100, hkfix⟩
      rw [mem_originalMappingOf] at he
      obtain ⟨i, hir, rfl⟩ := he
      have hi26 : i < Rp.ALPHABET.length := List.mem_range.mp hir
      have hiout : i < (Rp.pickShuffled shuffles).length := by rw [hlen]; exact hi26
      intro heq
      have hthis : Rp.hasFixedPoint (Rp.pickShuffled shuffles) = true := by
        apply List.any_eq_true.mpr
        refine ⟨i, List.mem_range.mpr hi26, decide_eq_true ?_⟩
        rw [getElem?_eq_some_getD hi26 'A', getElem?_eq_some_getD hiout 'A']
        exact congrArg some heq.symm
      rw [hnofix] at hthis
      cases hthis

/-- Assembled biconditional for `checkSolution` of `xenocrypt.js`, valid
when the true plaintext's alphabet characters are all `A`-`Z` with at
least one — when the plaintext contains one of the two non-`A`-`Z`
alphabet characters, the `/[^A-Z]/` filters silently drop that position
and the equivalence fails. -/
theorem c4_xeno (p : List Char) (k m : JsMap)
    (hp : jsUpperList p = p)
    (hres : ∀ x ∈ p, Xeno.ALPHABET.contains x = true → Xeno.isUpperAZ x = true)
    (hAZ : ∃ x ∈ p, Xeno.isUpperAZ x = true)
    (hkA : List.Perm (keysOf k) Xeno.ALPHABET)
    (hvA : List.Perm (valsOf k) Xeno.ALPHABET) :
    Xeno.checkSolution (Xeno.encryptMessage p k) m p = true ↔
      ∀ (i : Nat) (c : Char), (Xeno.encryptMessage p k)[i]? = some c →
        Xeno.ALPHABET.contains c = true → jsGet m c = p[i]? := by
  have hvnd := hvA.nodup_iff.mpr Xeno.ALPHABET_nodupX
  have hkmem : ∀ c ∈ keysOf k, c ∈ Xeno.ALPHABET := fun c hc => hkA.subset hc
  have hvmem : ∀ c ∈ Xeno.ALPHABET, c ∈ valsOf k := fun c hc => hvA.symm.subset hc
  have hmain := c4_main k m hkmem hvnd hvmem p hres
  have hE : Xeno.encryptMessage p k = p.map (Xeno.encChar k) := by
    unfold Xeno.encryptMessage
    rw [hp]
  rw [hE]
  have hguard : 0 < (p.filter Xeno.isUpperAZ).length := by
    obtain ⟨x₀, hx₀, hAZ₀⟩ := hAZ
    exact List.length_pos.mpr (List.ne_nil_of_mem (List.mem_filter.mpr ⟨hx₀, hAZ₀⟩))
  have hcheck : Xeno.checkSolution (p.map (Xeno.encChar k)) m p = true ↔
      ((p.map (Xeno.encChar k)).map (Xeno.decChar m)).filter Xeno.isUpperAZ =
        p.filter Xeno.isUpperAZ := by
    unfold Xeno.checkSolution Xeno.decodeWith
    rw [Bool.and_eq_true, beq_iff_eq, decide_eq_true_eq]
    exact ⟨fun h => h.1, fun h => ⟨h, hguard⟩⟩
  rw [hcheck, hmain]
  constructor
  · intro hchar i c hEi hcC
    rw [List.getElem?_map] at hEi
    rcases hpi : p[i]? with _ | x
    · rw [hpi] at hEi
      cases hEi
    · rw [hpi] at hEi
      rw [Option.map_some'] at hEi
      have hcx : Xeno.encChar k x = c := Option.some_inj.mp hEi
      have hxmem : x ∈ p := mem_of_getElem?_some hpi
      by_cases hx : Xeno.ALPHABET.contains x = true
      · rw [← hcx]
        exact hchar x hxmem hx
      · exfalso
        have hex : Xeno.encChar k x = x := by
          unfold Xeno.encChar
          rw [if_neg hx]
        rw [hex] at hcx
        rw [hcx] at hx
        exact hx hcC
  · intro hpos x hx hcx
    obtain ⟨i, hi, hieq⟩ := List.mem_iff_getElem.mp hx
    have hpi : p[i]? = some x := by
      rw [List.getElem?_eq_getElem hi, hieq]
    have hEi : (p.map (Xeno.encChar k))[i]? = some (Xeno.encChar k x) := by
      rw [List.getElem?_map, hpi]
      rfl
    have hcE := encChar_contains k hkmem hvnd hvmem x hcx
    exact (hpos i (Xeno.encChar k x) hEi hcE).trans hpi

/-- Claim C4 (amended). For every ciphertext built from a true plaintext
in normalized form with a total bijective key, and every guess mapping:
the React variant's solution-check effect returns true exactly when
every substitutable (alphabet) position of the ciphertext is mapped by
the guess mapping to the letter at the corresponding position of the
true plaintext — in particular it stays unsolved while any such position
is unmapped — with no further restriction; `xenocrypt.js`'s
`checkSolution` satisfies the same biconditional provided the
plaintext's alphabet characters are all `A`-`Z` and at least one is
present.  When the plaintext contains one of the two non-`A`-`Z`
alphabet characters, `checkSolution`'s `/[^A-Z]/` filters silently drop
that position and the equivalence fails there (see the
counterexample). -/
theorem claim_C4_amended :
    (∀ (q : List Char) (m subs : JsMap), jsUpperList q = q →
      List.Perm (keysOf m) Rp.ALPHABET → List.Perm (valsOf m) Rp.ALPHABET →
      (Rp.solvedCheck subs (Rp.encryptQuote m q) q = true ↔
        ∀ (i : Nat) (y : Char), (Rp.encryptQuote m q)[i]? = some y →
          Rp.ALPHABET.contains y = true → jsGet subs y = q[i]?)) ∧
    (∀ (p : List Char) (k m : JsMap), jsUpperList p = p →
      (∀ x ∈ p, Xeno.ALPHABET.contains x = true → Xeno.isUpperAZ x = true) →
      (∃ x ∈ p, Xeno.isUpperAZ x = true) →
      List.Perm (keysOf k) Xeno.ALPHABET → List.Perm (valsOf k) Xeno.ALPHABET →
      (Xeno.checkSolution (Xeno.encryptMessage p k) m p = true ↔
        ∀ (i : Nat) (c : Char), (Xeno.encryptMessage p k)[i]? = some c →
          Xeno.ALPHABET.contains c = true → jsGet m c = p[i]?)) :=
  ⟨fun q m subs hq hkA hvA => c4_react q m subs hq hkA hvA,
   fun p k m hp hres hAZ hkA hvA => c4_xeno p k m hp hres hAZ hkA hvA⟩

/-- Claim C4, counterexample. A concrete solved-check run that returns
true although a substitutable position is still unmapped: the plaintext
holds the corrupted alphabet character U+00C3, whose position encrypts to
the substitutable letter `N`; both the unmapped placeholder and the
non-`A`-`Z` plaintext character are stripped by the `/[^A-Z]/` filters,
so the check compares only the other positions and reports the puzzle
solved. -/
theorem claim_C4_counterexample :
    Xeno.checkSolution
      (Xeno.encryptMessage ['A', Char.ofNat 195, 'B']
        (Xeno.ALPHABET.zip (Xeno.ALPHABET.drop 1 ++ Xeno.ALPHABET.take 1)))
      [('Z', 'A'), ('A', 'B')] ['A', Char.ofNat 195, 'B'] = true ∧
    (Xeno.encryptMessage ['A', Char.ofNat 195, 'B']
      (Xeno.ALPHABET.zip (Xeno.ALPHABET.drop 1 ++ Xeno.ALPHABET.take 1)))[1]? =
        some 'N' ∧
    Xeno.ALPHABET.contains 'N' = true ∧
    jsGet [('Z', 'A'), ('A', 'B')] 'N' = none ∧
    List.Perm (keysOf (Xeno.ALPHABET.zip
      (Xeno.ALPHABET.drop 1 ++ Xeno.ALPHABET.take 1))) Xeno.ALPHABET ∧
    List.Perm (valsOf (Xeno.ALPHABET.zip
      (Xeno.ALPHABET.drop 1 ++ Xeno.ALPHABET.take 1))) Xeno.ALPHABET :=
  ⟨by decide, by decide, by decide, by decide, by decide, by decide⟩

theorem claim_C4_witness :
    jsUpperList ['H', 'I'] = ['H', 'I'] ∧
    (∀ x ∈ (['H', 'I'] : List Char),
      Xeno.ALPHABET.contains x = true → Xeno.isUpperAZ x = true) ∧
    (∃ x ∈ (['H', 'I'] : List Char), Xeno.isUpperAZ x = true) ∧
    (Xeno.checkSolution
        (Xeno.encryptMessage ['H', 'I']
          (Xeno.ALPHABET.zip (Xeno.ALPHABET.drop 1 ++ Xeno.ALPHABET.take 1)))
        [('G', 'H'), ('H', 'I')] ['H', 'I'] = true ↔
      ∀ (i : Nat) (c : Char), (Xeno.encryptMessage ['H', 'I']
          (Xeno.ALPHABET.zip (Xeno.ALPHABET.drop 1 ++ Xeno.ALPHABET.take 1)))[i]? =
            some c →
        Xeno.ALPHABET.contains c = true →
        jsGet [('G', 'H'), ('H', 'I')] c = (['H', 'I'] : List Char)[i]?) ∧
    (Rp.solvedCheck [('I', 'H'), ('J', 'I')]
        (Rp.encryptQuote (Rp.ALPHABET.zip (Rp.ALPHABET.drop 1 ++ Rp.ALPHABET.take 1))
          ['H', 'I']) ['H', 'I'] = true ↔
      ∀ (i : Nat) (y : Char),
        (Rp.encryptQuote (Rp.ALPHABET.zip (Rp.ALPHABET.drop 1 ++ Rp.ALPHABET.take 1))
          ['H', 'I'])[i]? = some y →
        Rp.ALPHABET.contains y = true →
        jsGet [('I', 'H'), ('J', 'I')] y = (['H', 'I'] : List Char)[i]?) :=
  ⟨by decide, by decide, by decide,
    claim_C4_amended.2 ['H', 'I'] _ [('G', 'H'), ('H', 'I')] (by decide) (by decide)
      (by decide) (by decide) (by decide),
    claim_C4_amended.1 ['H', 'I'] _ [('I', 'H'), ('J', 'I')] (by decide) (by decide)
      (by decide)⟩

/-- Claim C2 (amended). For every plaintext fixed by uppercasing (the
normalized form both engines actually encrypt — each uppercases its input
first) and every total bijective key, decrypting the encryption with the
key's opposite direction reproduces the plaintext exactly, at every
position; non-alphabet characters are identity-mapped by both
directions. -/
theorem claim_C2_amended :
    (∀ (p : List Char) (k : JsMap), jsUpperList p = p →
      List.Perm (keysOf k) Xeno.ALPHABET → List.Perm (valsOf k) Xeno.ALPHABET →
      Xeno.decodeWith k (Xeno.encryptMessage p k) = p) ∧
    (∀ (q : List Char) (m : JsMap), jsUpperList q = q →
      List.Perm (keysOf m) Rp.ALPHABET → List.Perm (valsOf m) Rp.ALPHABET →
      Rp.currentPlaintextOf (invOf m) (Rp.encryptQuote m q) = q) := by
  constructor
  · intro p k hp hkA hvA
    have hknd : (keysOf k).Nodup := hkA.nodup_iff.mpr Xeno.ALPHABET_nodupX
    have hvnd : (valsOf k).Nodup := hvA.nodup_iff.mpr Xeno.ALPHABET_nodupX
    unfold Xeno.decodeWith Xeno.encryptMessage
    rw [hp, List.map_map]
    have hcong : ∀ x ∈ p, (Xeno.decChar k ∘ Xeno.encChar k) x = id x := by
      intro x _
      exact decChar_encChar k hknd (fun c hc => hkA.subset hc) hvnd
        (fun c hc => hvA.symm.subset hc) x
    rw [List.map_congr_left hcong, List.map_id]
  · intro q m hq hkA hvA
    have hvnd : (valsOf m).Nodup := hvA.nodup_iff.mpr Rp.ALPHABET_nodupR
    unfold Rp.currentPlaintextOf Rp.encryptQuote Rp.normalizeText
    rw [hq, List.map_map]
    have hcong : ∀ x ∈ q, (Rp.decChar (invOf m) ∘ Rp.encChar m) x = id x := by
      intro x _
      exact rp_dec_enc_char m (fun c hc => hkA.symm.subset hc) hvnd
        (fun c hc => hvA.subset hc) x
    rw [List.map_congr_left hcong, List.map_id]

/-- Claim C2, counterexample. With a perfectly valid key — the
rotate-by-one derangement of the 28-character alphabet — encrypting the
lowercase plaintext `a` and decrypting again yields `A`, not `a`: the
engine uppercases before encrypting, so the round trip does not reproduce
every plaintext string exactly at every position. -/
theorem claim_C2_counterexample :
    List.Perm (keysOf (Xeno.ALPHABET.zip
      (Xeno.ALPHABET.drop 1 ++ Xeno.ALPHABET.take 1))) Xeno.ALPHABET ∧
    List.Perm (valsOf (Xeno.ALPHABET.zip
      (Xeno.ALPHABET.drop 1 ++ Xeno.ALPHABET.take 1))) Xeno.ALPHABET ∧
    Xeno.decodeWith (Xeno.ALPHABET.zip (Xeno.ALPHABET.drop 1 ++ Xeno.ALPHABET.take 1))
      (Xeno.encryptMessage ['a']
        (Xeno.ALPHABET.zip (Xeno.ALPHABET.drop 1 ++ Xeno.ALPHABET.take 1))) = ['A'] ∧
    (['A'] : List Char) ≠ ['a'] :=
  ⟨by decide, by decide, by decide, by decide⟩

theorem claim_C2_witness :
    jsUpperList ['H', 'O', 'L', 'A', ' '] = ['H', 'O', 'L', 'A', ' '] ∧
    Xeno.decodeWith (Xeno.ALPHABET.zip (Xeno.ALPHABET.drop 1 ++ Xeno.ALPHABET.take 1))
      (Xeno.encryptMessage ['H', 'O', 'L', 'A', ' ']
        (Xeno.ALPHABET.zip (Xeno.ALPHABET.drop 1 ++ Xeno.ALPHABET.take 1))) =
      ['H', 'O', 'L', 'A', ' '] ∧
    Rp.currentPlaintextOf
      (invOf (Rp.ALPHABET.zip (Rp.ALPHABET.drop 1 ++ Rp.ALPHABET.take 1)))
      (Rp.encryptQuote (Rp.ALPHABET.zip (Rp.ALPHABET.drop 1 ++ Rp.ALPHABET.take 1))
        ['H', 'I']) = ['H', 'I'] :=
  ⟨by decide,
    claim_C2_amended.1 ['H', 'O', 'L', 'A', ' '] _ (by decide) (by decide) (by decide),
    claim_C2_amended.2 ['H', 'I'] _ (by decide) (by decide) (by decide)⟩

/-- Claim C1, counterexample. The claim fails concretely in both variants:
`generateRandomKey` (here run on the already-deranged rotate-by-one
shuffle) returns a key with no entry at `Z` at all — so `key(Z)` is not
an alphabet letter and the key is not a total bijection; and when every
sampled shuffle is the identity permutation (reachable, the sort
comparator being a coin flip), the React variant's retry loop gives up
after its 100 retries and the key maps `A` to itself, violating the
no-fixed-point property. -/
theorem claim_C1_counterexample :
    jsGet (Xeno.generateRandomKey
      (Xeno.ALPHABET.drop 1 ++ Xeno.ALPHABET.take 1)) 'Z' = none ∧
    jsGet (Rp.originalMappingOf (Rp.pickShuffled (fun _ => Rp.ALPHABET))) 'A'
      = some 'A' := by
  refine ⟨jsGet_generateRandomKey_Z _, ?_⟩
  rw [pickShuffled_const]
  decide

theorem claim_C1_witness :
    List.Perm (Xeno.ALPHABET.drop 1 ++ Xeno.ALPHABET.take 1) Xeno.ALPHABET ∧
    jsGet (Xeno.generateRandomKey
      (Xeno.ALPHABET.drop 1 ++ Xeno.ALPHABET.take 1)) 'Z' = none ∧
    (∃ k, k ≤ 100 ∧ Rp.hasFixedPoint ((fun _ => Rp.ALPHABET.reverse) k) = false) ∧
    (∀ e ∈ Rp.originalMappingOf (Rp.pickShuffled (fun _ => Rp.ALPHABET.reverse)),
      e.2 ≠ e.1) :=
  ⟨by decide, (claim_C1_amended.1 _ (by decide)).1, ⟨0, by decide, by decide⟩,
    (claim_C1_amended.2 _ (fun _ => List.reverse_perm _)).2.2 ⟨0, by decide, by decide⟩⟩

/-- Claim C9. `encryptMessage` is total for every key object and input
string: an uppercased input character that belongs to the alphabet but
has no entry in the key's inverse is passed through unchanged rather than
failing.  Every map returned by `generateRandomKey` omits the final
symbol `Z` of its 28-character alphabet from its domain (the conversion
loop covers only indices 0..26), and encryption with such a key leaves
the corresponding plain letter — the one the underlying derangement
pairs with the cipher letter `Z` — unsubstituted. -/
theorem claim_C9 :
    (∀ (key : JsMap) (text : List Char) (i : Nat) (c : Char),
      (jsUpperList text)[i]? = some c → c ∈ Xeno.ALPHABET →
      jsGet (invOf key) c = none →
      (Xeno.encryptMessage text key)[i]? = some c) ∧
    (∀ s : List Char, jsGet (Xeno.generateRandomKey s) 'Z' = none) ∧
    (∀ s : List Char, List.Perm s Xeno.ALPHABET →
      ∃ w ∈ Xeno.ALPHABET,
        jsGet (invOf (Xeno.generateRandomKey s)) w = none ∧
        Xeno.encryptMessage [w] (Xeno.generateRandomKey s) = [w]) := by
  refine ⟨?_, jsGet_generateRandomKey_Z, ?_⟩
  · intro key text i c hget hc hinv
    unfold Xeno.encryptMessage
    rw [List.getElem?_map, hget, Option.map_some']
    unfold Xeno.encChar
    rw [if_pos (List.elem_iff.mpr hc), hinv]
    rfl
  · intro s hp
    obtain ⟨hnd, hlen, hperm, hnofix⟩ := fixDerangement_of_perm s hp
    have h27 : 27 < (Xeno.fixDerangement s).length := by
      rw [hlen, Xeno.ALPHABET_length]; omega
    have hwA : (Xeno.fixDerangement s).getD 27 'A' ∈ Xeno.ALPHABET :=
      hperm.subset (getD_mem h27 'A')
    have hmiss : jsGet (invOf (Xeno.generateRandomKey s))
        ((Xeno.fixDerangement s).getD 27 'A') = none := by
      rw [jsGet_eq_none_iff, Xeno.generateRandomKey,
        keysOf_invOf _ (valsOf_keyMapOf_nodup _ hnd (by omega)), valsOf_keyMapOf]
      intro hmem
      rcases List.mem_map.mp hmem with ⟨i, hir, hieq⟩
      have hi27 : i < 27 := List.mem_range.mp hir
      have hiout : i < (Xeno.fixDerangement s).length := by
        rw [hlen, Xeno.ALPHABET_length]; omega
      have hq : (Xeno.fixDerangement s)[i]? = (Xeno.fixDerangement s)[27]? := by
        rw [getElem?_eq_some_getD hiout 'A', getElem?_eq_some_getD h27 'A', hieq]
      have := List.getElem?_inj hiout hnd hq
      omega
    refine ⟨(Xeno.fixDerangement s).getD 27 'A', hwA, hmiss, ?_⟩
    unfold Xeno.encryptMessage jsUpperList
    rw [List.map_cons, List.map_nil, ALPHABET_upperFixed _ hwA,
      List.map_cons, List.map_nil]
    unfold Xeno.encChar
    rw [if_pos (List.elem_iff.mpr hwA), hmiss]
    rfl

theorem claim_C9_witness :
    ((jsUpperList ['a'])[0]? = some 'A' ∧ ('A' : Char) ∈ Xeno.ALPHABET ∧
      jsGet (invOf ([] : JsMap)) 'A' = none ∧
      (Xeno.encryptMessage ['a'] ([] : JsMap))[0]? = some 'A') ∧
    jsGet (Xeno.generateRandomKey []) 'Z' = none ∧
    (∃ w ∈ Xeno.ALPHABET,
      jsGet (invOf (Xeno.generateRandomKey
        (Xeno.ALPHABET.drop 1 ++ Xeno.ALPHABET.take 1))) w = none ∧
      Xeno.encryptMessage [w] (Xeno.generateRandomKey
        (Xeno.ALPHABET.drop 1 ++ Xeno.ALPHABET.take 1)) = [w]) :=
  ⟨⟨by decide, by decide, by decide,
      claim_C9.1 [] ['a'] 0 'A' (by decide) (by decide) (by decide)⟩,
    claim_C9.2.1 [],
    claim_C9.2.2 (Xeno.ALPHABET.drop 1 ++ Xeno.ALPHABET.take 1) (by decide)⟩

/-- Claim C7. The sum of the frequency-table counts over all letters equals
the number of alphabet characters occurring in the ciphertext: for the
React variant's count map unconditionally, and for `calculateFrequency`
of `xenocrypt.js` for every uppercase-fixed ciphertext (every ciphertext
the engine produces is uppercase-fixed, `encryptMessage` having
uppercased its input). -/
theorem claim_C7 :
    (∀ text : List Char, cntSum (Rp.getFrequencyCounts text) =
        (text.filter Rp.ALPHABET.contains).length) ∧
    (∀ c : List Char, jsUpperList c = c →
      cntSum (Xeno.calculateFrequency c) =
        (c.filter Xeno.ALPHABET.contains).length) := by
  constructor
  · intro text
    unfold Rp.getFrequencyCounts
    rw [getFreq_fold_sum text [] List.nodup_nil]
    have h0 : cntSum [] = 0 := rfl
    rw [h0, Nat.zero_add]
  · intro c hc
    unfold Xeno.calculateFrequency
    rw [hc, calcFreq_fold_sum c Xeno.initCounts
      (by rw [keysOf_initCounts]; exact Xeno.ALPHABET_nodupX)
      (fun d hd => keysOf_initCounts ▸ List.elem_iff.mp hd)]
    have h0 : cntSum Xeno.initCounts = 0 := by decide
    rw [h0, Nat.zero_add]

theorem claim_C7_witness :
    jsUpperList ['H', 'O', 'L', 'A', '!'] = ['H', 'O', 'L', 'A', '!'] ∧
    cntSum (Xeno.calculateFrequency ['H', 'O', 'L', 'A', '!']) =
      ((['H', 'O', 'L', 'A', '!'] : List Char).filter Xeno.ALPHABET.contains).length ∧
    cntSum (Rp.getFrequencyCounts ['H', 'O', 'L', 'A', '!']) =
      ((['H', 'O', 'L', 'A', '!'] : List Char).filter Rp.ALPHABET.contains).length :=
  ⟨by decide, claim_C7.2 ['H', 'O', 'L', 'A', '!'] (by decide),
    claim_C7.1 ['H', 'O', 'L', 'A', '!']⟩

/-- Claim C8 (amended). Only `xenocrypt.js` guarantees the underlying count
map holds an entry for every alphabet letter: `calculateFrequency`
initialises an entry for each of its 28 `ALPHABET` characters — in
particular for every `A`-`Z` letter — whereas the React variant's
`getFrequency` creates entries only for letters that actually occur in
the text, omitting never-occurring letters entirely. -/
theorem claim_C8_amended :
    (∀ text : List Char, ∀ L ∈ Xeno.ALPHABET,
      (jsGet (Xeno.calculateFrequency text) L).isSome) ∧
    (∀ (text : List Char) (L : Char),
      (jsGet (Rp.getFrequencyCounts text) L).isSome → L ∈ text) := by
  constructor
  · intro text L hL
    rw [jsGet_isSome_iff]
    unfold Xeno.calculateFrequency
    rw [calcFreq_fold_keys, keysOf_initCounts]
    exact hL
  · intro text L h
    rw [jsGet_isSome_iff] at h
    unfold Rp.getFrequencyCounts at h
    rcases getFreq_fold_keys text [] L h with h' | h'
    · cases h'
    · exact h'

theorem claim_C8_witness :
    ('A' : Char) ∈ Xeno.ALPHABET ∧
    (jsGet (Xeno.calculateFrequency ['B']) 'A').isSome ∧
    ((jsGet (Rp.getFrequencyCounts ['B']) 'B').isSome → ('B' : Char) ∈ ['B']) :=
  ⟨by decide, claim_C8_amended.1 ['B'] 'A' (by decide),
    claim_C8_amended.2 ['B'] 'B'⟩

/-- Claim C8, counterexample. The React variant's `getFrequency` builds a
count map with no entry at all for the letter `A` when the text is just
`B`: never-occurring letters are omitted, contradicting the claim that
the underlying count map contains an entry (possibly 0) for every one of
the 26 alphabet letters. -/
theorem claim_C8_counterexample :
    ('A' : Char) ∈ Rp.ALPHABET ∧
    jsGet (Rp.getFrequencyCounts ['B']) 'A' = none :=
  ⟨by decide, by decide⟩

/-- Claim C10. The solved check never reports the puzzle solved when the
true plaintext contains no `A`-`Z` character: even when the filtered
candidate text equals the (empty) filtered true plaintext, the guard
requiring the filtered true plaintext to be non-empty makes the result
unsolved. -/
theorem claim_C10 (ciphertext : List Char) (m : JsMap) (plaintext : List Char)
    (h : plaintext.filter Xeno.isUpperAZ = []) :
    Xeno.checkSolution ciphertext m plaintext = false := by
  unfold Xeno.checkSolution
  rw [h]
  simp

theorem claim_C10_witness :
    (['a', '!'] : List Char).filter Xeno.isUpperAZ = [] ∧
    Xeno.checkSolution ['Q'] [] ['a', '!'] = false :=
  ⟨by decide, claim_C10 ['Q'] [] ['a', '!'] (by decide)⟩

/-- Claim C6, counterexample. On the empty quote list the code reports
through the status message — whose text is not `EmptyPuzzleSource` — and
returns an ordinary state with the puzzle components unchanged, so no
named `EmptyPuzzleSource` error reaches the caller. -/
theorem claim_C6_counterexample :
    Xeno.generateNewPuzzle [] 0 Xeno.ALPHABET
        ⟨['X'], ['A'], [('X', 'A')], [('X', 'A')], [('X', 1)], "old"⟩ =
      ⟨['X'], ['A'], [('X', 'A')], [('X', 'A')], [('X', 1)],
        "Puzzles not loaded. Check console for fetch errors."⟩ ∧
    "Puzzles not loaded. Check console for fetch errors." ≠ "EmptyPuzzleSource" :=
  ⟨rfl, by decide⟩

end Codebusters
